import Mathlib

/-!
# MailSlurper: header parser (`MailHeader.go`) and worker pool (`ServerPool.go`)

A shallow embedding of `MailHeader.Parse`, of the Go `strings` functions it
calls and of the worker pool, followed by theorems about the parser and about
the pool.

Conventions of the embedding.

* A Go `string` is a `List Char` (`Str`): a sequence of runes.
* Go's run-time panics (index or slice bound out of range) are the value `none`
  of `Option`: `index` and `sliceFrom` are the only partial operations.
* `UnfoldHeaders` and `ParseDateTime` are functions of the package that live in
  other files; the parser takes them as parameters.
* `strings.ToLower` maps `unicode.ToLower` over the runes of a string. The rune
  mapping is the parameter `lower`; where a theorem needs to know how ASCII
  letters are lowered it assumes `GoLower lower`.
* `log.Println` calls only write to the log and are left out.
-/

namespace MailSlurper

/-- A Go string, as the list of its runes. -/
abbrev Str := List Char

/-! ## The `strings` package -/

/-- First occurrence of `sep` in `s`: the text before it and the text after it
(`strings.Index` followed by the two slicings `s[:m]` and `s[m+len(sep):]`). -/
def cut (sep : Str) : Str → Option (Str × Str)
  | [] => if sep = [] then some ([], []) else none
  | c :: s =>
    if sep.isPrefixOf (c :: s) then some ([], (c :: s).drop sep.length)
    else (cut sep s).map (fun p => (c :: p.1, p.2))

/-- The loop of `strings.genSplit`: at most `n` cuts at successive first
occurrences of `sep`; the rest of the string is the last piece. -/
def splitN (sep : Str) : Nat → Str → List Str
  | 0, s => [s]
  | n + 1, s =>
    match cut sep s with
    | none => [s]
    | some (a, b) => a :: splitN sep n b

/-- Go `strings.Split(s, sep)` for a non-empty `sep` (every call of the parser
passes a non-empty literal): `genSplit` makes `Count(s, sep)` cuts, and
`Count(s, sep) ≤ len(s)`. -/
def Split (s sep : Str) : List Str := splitN sep s.length s

/-- Go `strings.Join(elems, sep)`. -/
def Join (elems : List Str) (sep : Str) : Str := sep.intercalate elems

/-- Go `strings.Contains(s, substr)`, that is `Index(s, substr) >= 0`. -/
def Contains (s substr : Str) : Bool := (cut substr s).isSome

/-- Go `strings.Replace(s, old, new, -1)` for a non-empty `old`: every
non-overlapping occurrence of `old`, from the left, becomes `new`. -/
def Replace (s old new : Str) : Str := Join (Split s old) new

/-- Go `unicode.IsSpace`. -/
def IsSpace (c : Char) : Bool :=
  let n := c.toNat
  (9 ≤ n && n ≤ 13) || n = 0x20 || n = 0x85 || n = 0xA0 || n = 0x1680 ||
  (0x2000 ≤ n && n ≤ 0x200A) || n = 0x2028 || n = 0x2029 || n = 0x202F ||
  n = 0x205F || n = 0x3000

/-- Go `strings.TrimSpace`: leading and trailing white space removed. -/
def TrimSpace (s : Str) : Str :=
  ((s.dropWhile IsSpace).reverse.dropWhile IsSpace).reverse

/-- Go `strings.ToLower`, over the rune mapping `lower`. -/
def ToLower (lower : Char → Char) (s : Str) : Str := s.map lower

/-- What the theorems assume of `unicode.ToLower`: on ASCII it maps `A`-`Z` to
`a`-`z` and fixes every other rune. -/
def GoLower (lower : Char → Char) : Prop :=
  ∀ c : Char, c.toNat < 128 → lower c = c.toLower

/-- Go `xs[i]`: panics (here `none`) when `i` is out of range. -/
def index {α : Type} (xs : List α) (i : Nat) : Option α := xs[i]?

/-- Go `xs[i:]`: panics (here `none`) when `i > len(xs)`. -/
def sliceFrom {α : Type} (xs : List α) (i : Nat) : Option (List α) :=
  if i ≤ xs.length then some (xs.drop i) else none

/-! ## `MailHeader.go` -/

/-- The struct `MailHeader`. -/
structure MailHeader where
  ContentType : Str
  Boundary : Str
  MIMEVersion : Str
  Subject : Str
  Date : Str
  XMailer : Str
deriving DecidableEq, Repr

/-- The constructor `NewMailHeader`. -/
def NewMailHeader (contentType boundary mimeVersion subject date xMailer : Str) :
    MailHeader :=
  { ContentType := contentType, Boundary := boundary, MIMEVersion := mimeVersion,
    Subject := subject, Date := date, XMailer := xMailer }

/-- The zero value of `MailHeader` (`&MailHeader{}`): every field empty. -/
def zeroHeader : MailHeader := NewMailHeader [] [] [] [] [] []

/-- The message of the error `Parse` returns. -/
def errNoBody : Str :=
  "Expected DATA block to contain a header section and a body section".toList

def CRLF : Str := ['\r', '\n']

def CRLFCRLF : Str := ['\r', '\n', '\r', '\n']

section Parser

variable (UnfoldHeaders ParseDateTime : Str → Str) (lower : Char → Char)

/-- The body of the `for` loop of `Parse` (lines 73-113), run on one line of
the header section. -/
def parseLine (this : MailHeader) (line : Str) : Option MailHeader := do
  let splitItem := Split line [':']
  let key ← index splitItem 0
  let k := ToLower lower key
  if k = "content-type".toList then
    let contentType := Join (← sliceFrom splitItem 1) []
    let contentTypeSplit := Split contentType [';']
    let this := { this with ContentType := TrimSpace (← index contentTypeSplit 0) }
    if contentTypeSplit.length > 1 then
      let contentTypeRightSide := Join (← sliceFrom contentTypeSplit 1) [';']
      if Contains (ToLower lower contentTypeRightSide) "boundary".toList then
        let boundarySplit := Split contentTypeRightSide ['=']
        pure { this with
          Boundary := Replace (Join (← sliceFrom boundarySplit 1) ['=']) ['"'] [] }
      else pure this
    else pure this
  else if k = "date".toList then
    pure { this with Date := ParseDateTime (Join (← sliceFrom splitItem 1) [':']) }
  else if k = "mime-version".toList then
    pure { this with MIMEVersion := TrimSpace (Join (← sliceFrom splitItem 1) []) }
  else if k = "subject".toList then
    let this := { this with Subject := TrimSpace (Join (← sliceFrom splitItem 1) []) }
    if this.Subject = [] then pure { this with Subject := "(No Subject)".toList }
    else pure this
  else pure this

/-- The method `(*MailHeader).Parse`. The result is `none` when the Go code
panics; otherwise it is the receiver after the call, with the returned error
(`none` for `nil`). -/
def Parse (this : MailHeader) (contents : Str) : Option (MailHeader × Option Str) := do
  let this := { this with XMailer := "MailSlurper!".toList }
  let this := { this with Boundary := [] }
  let headerBodySplit := Split contents CRLFCRLF
  if headerBodySplit.length < 2 then
    pure (this, some errNoBody)
  else
    let contents ← index headerBodySplit 0
    let contents := UnfoldHeaders contents
    let splitHeader := Split contents CRLF
    -- `for index := 0; index < numLines; index++`, on `splitHeader[index]`
    let this ← splitHeader.foldlM (parseLine ParseDateTime lower) this
    pure (this, none)

end Parser

/-! ## `ServerPool.go`

The pool is a buffered channel of pointers to workers. A pointer is the address
of a worker in the heap, the list of the workers allocated so far. The
functions are run by one goroutine at a time: a send on a full channel, which
in Go waits for a receiver, is the outcome `blocks`, and a `select` whose
receive case is not ready ends with its timer case. The size of a channel is
limited by the parameter `chanLimit` of `NewServerPool`; within that limit the
memory for the buffer and for the workers is taken to be there (a process that
runs out of memory is ended by the runtime, it does not panic). -/

/-- A `net.Conn`, by its handle. -/
abbrev Conn := Nat

/-- A `chan MailItem`, by its handle. -/
abbrev MailItemChan := Nat

/-- A validation or sanitisation service, by its handle. -/
abbrev Service := Nat

/-- The struct `SMTPReader`, as far as `NextWorker` builds it. -/
structure SMTPReader where
  Connection : Conn
deriving DecidableEq, Repr

/-- The struct `SMTPWriter`, as far as `NextWorker` builds it. -/
structure SMTPWriter where
  Connection : Conn
deriving DecidableEq, Repr

/-- Modelled from the spec: the struct `SMTPWorker`, declared in another file
of the package; a stable 1-based id, the connection and the output channel bound
at each acquisition, the reader and writer built over the connection, and the
two shared services. A field that is `nil` in Go is `none`. -/
structure SMTPWorker where
  WorkerID : Int
  Connection : Option Conn
  Receiver : Option MailItemChan
  Reader : Option SMTPReader
  Writer : Option SMTPWriter
  EmailValidationService : Option Service
  XSSService : Option Service
deriving DecidableEq, Repr

/-- The composite literal `SMTPWorker{}`: every field at its zero value. -/
def emptyWorker : SMTPWorker :=
  { WorkerID := 0, Connection := none, Receiver := none, Reader := none, Writer := none,
    EmailValidationService := none, XSSService := none }

/-- A `*SMTPWorker`: the address of a worker in the heap. -/
abbrev WorkerPtr := Nat

/-- The type `ServerPool`, a `chan *SMTPWorker`: its capacity and the pointers
it buffers, oldest first. -/
structure ServerPool where
  capacity : Nat
  queue : List WorkerPtr
deriving DecidableEq, Repr

/-- The memory the functions of `ServerPool.go` work on: the workers allocated so
far and the channel. -/
structure PoolState where
  heap : List SMTPWorker
  pool : ServerPool
deriving DecidableEq, Repr

/-- The ways a call does not return: a run-time panic, or a channel send that
waits for a receiver. -/
inductive Stuck where
  | panic
  | blocks
deriving DecidableEq, Repr

/-- Modelled from the spec: the error `NoWorkerAvailable()`, built in another
file of the package. -/
inductive PoolError where
  | NoWorkerAvailable
deriving DecidableEq, Repr

/-- The allocation `&w`: the worker is put at the next free address. -/
def allocate (heap : List SMTPWorker) (w : SMTPWorker) : List SMTPWorker × WorkerPtr :=
  (heap ++ [w], heap.length)

/-- Modelled from the spec: the constructor `NewSMTPWorker(workerID, pool,
emailValidationService, xssService)`, defined in another file of the package;
it allocates a worker with the given id and services, bound to no connection. -/
def NewSMTPWorker (workerID : Int) (emailValidationService xssService : Service)
    (heap : List SMTPWorker) : List SMTPWorker × WorkerPtr :=
  allocate heap
    { emptyWorker with
      WorkerID := workerID
      EmailValidationService := some emailValidationService
      XSSService := some xssService }

/-- Modelled from the spec: the method `(*SMTPWorker).Prepare(connection,
receiver, reader, writer)`, defined in another file of the package; it rebinds
the worker to the connection, the output channel and the fresh reader and
writer. It panics on a pointer that addresses no worker. -/
def Prepare (heap : List SMTPWorker) (worker : WorkerPtr) (connection : Conn)
    (receiver : MailItemChan) (reader : SMTPReader) (writer : SMTPWriter) :
    Except Stuck (List SMTPWorker) :=
  match heap[worker]? with
  | none => .error .panic
  | some w =>
    .ok (heap.set worker
      { w with
        Connection := some connection
        Receiver := some receiver
        Reader := some reader
        Writer := some writer })

/-- The method `ServerPool.JoinQueue`: the send `pool <- worker`. -/
def JoinQueue (s : PoolState) (worker : WorkerPtr) : Except Stuck PoolState :=
  if s.pool.queue.length < s.pool.capacity then
    .ok { s with pool := { s.pool with queue := s.pool.queue ++ [worker] } }
  else .error .blocks

/-- The `for` loop of `NewServerPool` (lines 40-47): `k` passes are left and
the loop variable is `index`. -/
def newServerPoolLoop (emailValidationService xssService : Service) :
    Nat → Int → PoolState → Except Stuck PoolState
  | 0, _, s => .ok s
  | k + 1, index, s =>
    match NewSMTPWorker (index + 1) emailValidationService xssService s.heap with
    | (heap, worker) =>
      match JoinQueue { s with heap := heap } worker with
      | .ok s' => newServerPoolLoop emailValidationService xssService k (index + 1) s'
      | .error e => .error e

/-- An upper bound, on 64-bit platforms, of the channel sizes that `make`
accepts for a channel of pointers: 8-byte elements in an address space of at
most 2^48 bytes. It stands for the limit of the runtime in the closed
statements. -/
def chanLimit64 : Nat := 2 ^ 45

/-- The function `NewServerPool`. The two services are the results of
`sanitizer.NewXSSService()` and `NewEmailValidationService()`; the heap is the
memory before the call. `make(ServerPool, maxWorkers)` panics with
`makechan: size out of range` on a negative size and on a size above
`chanLimit`, the largest channel size the Go runtime accepts on the platform
(the buffer must fit the address space); `chanLimit` is below the largest
`int`, so that `index + 1` does not overflow in the loop. -/
def NewServerPool (chanLimit : Nat) (emailValidationService xssService : Service)
    (heap : List SMTPWorker) (maxWorkers : Int) : Except Stuck PoolState :=
  if maxWorkers < 0 ∨ (chanLimit : Int) < maxWorkers then .error .panic
  else
    newServerPoolLoop emailValidationService xssService maxWorkers.toNat 0
      { heap := heap, pool := { capacity := maxWorkers.toNat, queue := [] } }

/-- The method `ServerPool.NextWorker`. With a worker queued the receive case of
the `select` is ready at once; with none queued, and no other goroutine to
release one, the timer case ends the wait. The result is the memory after the
call, the pointer returned and the error returned (`none` for `nil`). -/
def NextWorker (s : PoolState) (connection : Conn) (receiver : MailItemChan) :
    Except Stuck (PoolState × WorkerPtr × Option PoolError) :=
  match s.pool.queue with
  | worker :: rest =>
    match Prepare s.heap worker connection receiver { Connection := connection }
        { Connection := connection } with
    | .ok heap => .ok ({ heap := heap, pool := { s.pool with queue := rest } }, worker, none)
    | .error e => .error e
  | [] =>
    match allocate s.heap emptyWorker with
    | (heap, worker) => .ok ({ s with heap := heap }, worker, some PoolError.NoWorkerAvailable)

/-! ## Specification vocabulary -/

/-- The pair `(a, b)` splits `s` at the first occurrence of `sep`: `s` is `a`,
then `sep`, then `b`, and no occurrence of `sep` in `s` starts earlier. -/
def FirstOcc (sep s a b : Str) : Prop :=
  s = a ++ sep ++ b ∧ ∀ a' b' : Str, s = a' ++ sep ++ b' → a.length ≤ a'.length

/-- The text of `s` before its first `c` (all of `s` when `c` does not occur). -/
def before (c : Char) (s : Str) : Str := s.takeWhile (· != c)

/-- The text of `s` after its first `c` (empty when `c` does not occur). -/
def after (c : Char) (s : Str) : Str := (s.dropWhile (· != c)).drop 1

/-- The string `s` with every `c` deleted. -/
def without (c : Char) (s : Str) : Str := s.filter (· != c)

/-- The name of a header line: the text before its first colon (the whole
line when it has no colon). -/
def headerName (line : Str) : Str := before ':' line

/-- The value of a header line: the text after its first colon (empty when
the line has no colon). -/
def headerValue (line : Str) : Str := after ':' line

/-- What one pass of the loop of `Parse` does to the receiver, written with
`before`, `after` and `without` in place of `Split` and `Join`. The lemma
`parseLine_eq` shows that `parseLine` computes exactly this and never panics. -/
def lineEffect (ParseDateTime : Str → Str) (lower : Char → Char) (this : MailHeader)
    (line : Str) : MailHeader :=
  let k := ToLower lower (headerName line)
  let v := headerValue line
  if k = "content-type".toList then
    let w := without ':' v
    let this := { this with ContentType := TrimSpace (before ';' w) }
    if ';' ∈ w ∧ Contains (ToLower lower (after ';' w)) "boundary".toList = true then
      { this with Boundary := without '"' (after '=' (after ';' w)) }
    else this
  else if k = "date".toList then
    { this with Date := ParseDateTime v }
  else if k = "mime-version".toList then
    { this with MIMEVersion := TrimSpace (without ':' v) }
  else if k = "subject".toList then
    { this with Subject :=
        if TrimSpace (without ':' v) = [] then "(No Subject)".toList
        else TrimSpace (without ':' v) }
  else this

/-- The receiver as `Parse` leaves it before it looks at the input. -/
def resetHeader (this : MailHeader) : MailHeader :=
  { this with XMailer := "MailSlurper!".toList, Boundary := [] }

/-- The header section of a DATA block: the text before the first
occurrence of the delimiter CR LF CR LF. -/
def HeaderSection (contents hdr : Str) : Prop :=
  ∃ body : Str, FirstOcc CRLFCRLF contents hdr body

/-- The text `hdr` consists of the lines `lines`, each ended by CR LF except
the last; no line contains CR LF. -/
def HeaderLines (hdr : Str) (lines : List Str) : Prop :=
  lines ≠ [] ∧ (∀ l ∈ lines, ¬ CRLF <:+: l) ∧ hdr = Join lines CRLF

/-- The header line `Content-Type: T; boundary="B"`. -/
def contentTypeLine (T B : Str) : Str :=
  "Content-Type: ".toList ++ T ++ "; boundary=\"".toList ++ B ++ "\"".toList

/-- The boundary of a Content-Type value as derived from its second
`;`-separated segment only (the text between the first `;` and the next one):
the text after that segment's first `=` with the double quotes removed when the
lower-cased segment contains `boundary`, and the empty string otherwise. -/
def boundaryOfSecondSegment (lower : Char → Char) (v : Str) : Str :=
  if ';' ∈ v ∧ "boundary".toList <:+: ToLower lower (before ';' (after ';' v))
  then without '"' (after '=' (before ';' (after ';' v))) else []

/-- The boundary of a Content-Type value as the code derives it, from the whole
text after its first `;`: the part of that text after its first `=` with the
double quotes removed when the lower-cased text contains `boundary`, and the
empty string otherwise. -/
def boundaryOfRightSide (lower : Char → Char) (v : Str) : Str :=
  if ';' ∈ v ∧ "boundary".toList <:+: ToLower lower (after ';' v)
  then without '"' (after '=' (after ';' v)) else []

/-- The lower-cased header names that `Parse` stores. -/
def recognisedNames : List Str :=
  ["content-type".toList, "date".toList, "mime-version".toList, "subject".toList]

/-- The line has one of the recognised names. -/
def Recognised (lower : Char → Char) (line : Str) : Prop :=
  ToLower lower (headerName line) ∈ recognisedNames

instance (lower : Char → Char) (line : Str) : Decidable (Recognised lower line) := by
  unfold Recognised
  infer_instance

/-- The line has the lower-cased name `name`. -/
def hasName (lower : Char → Char) (name line : Str) : Bool :=
  decide (ToLower lower (headerName line) = name)

/-- The lines with all but the last line that satisfies `p` removed. -/
def dropEarlier (p : Str → Bool) : List Str → List Str
  | [] => []
  | l :: ls => if p l && ls.any p then dropEarlier p ls else l :: dropEarlier p ls

/-- The lines that `dropEarlier p` removes: those that satisfy `p` and are
followed by a line that satisfies `p`. -/
def droppedLines (p : Str → Bool) : List Str → List Str
  | [] => []
  | l :: ls => if p l && ls.any p then l :: droppedLines p ls else droppedLines p ls

/-- The line is one on which the loop of `Parse` assigns `Boundary`: its name is
Content-Type and its value passes the two tests of lines 87 and 90. -/
def assignsBoundary (lower : Char → Char) (line : Str) : Prop :=
  ToLower lower (headerName line) = "content-type".toList ∧
    (';' ∈ without ':' (headerValue line) ∧
      Contains (ToLower lower (after ';' (without ':' (headerValue line))))
        "boundary".toList = true)

/-- The value of the line has no colon and declares a boundary: it has a `;`
and its second `;`-separated segment, lower-cased, contains `boundary`. -/
def DeclaresBoundary (lower : Char → Char) (line : Str) : Prop :=
  ':' ∉ headerValue line ∧ ';' ∈ headerValue line ∧
    "boundary".toList <:+: ToLower lower (before ';' (after ';' (headerValue line)))

instance (lower : Char → Char) (line : Str) : Decidable (DeclaresBoundary lower line) := by
  unfold DeclaresBoundary
  infer_instance

/-- The value of the line has no colon and declares no boundary: it has no `;`,
or the lower-cased text after its first `;` does not contain `boundary`. -/
def DeclaresNoBoundary (lower : Char → Char) (line : Str) : Prop :=
  ':' ∉ headerValue line ∧
    ¬ (';' ∈ headerValue line ∧
      "boundary".toList <:+: ToLower lower (after ';' (headerValue line)))

instance (lower : Char → Char) (line : Str) : Decidable (DeclaresNoBoundary lower line) := by
  unfold DeclaresNoBoundary
  infer_instance

/-- The id of the worker a pointer addresses, when it addresses one. -/
def workerID (heap : List SMTPWorker) (p : WorkerPtr) : Option Int :=
  (heap[p]?).map (fun w => w.WorkerID)

/-- Successive calls of `NextWorker`, one for each connection and output
channel of the list, with the pointer and the error each call returns. -/
def NextWorkers (s : PoolState) :
    List (Conn × MailItemChan) → Except Stuck (PoolState × List (WorkerPtr × Option PoolError))
  | [] => .ok (s, [])
  | (connection, receiver) :: calls =>
    match NextWorker s connection receiver with
    | .error e => .error e
    | .ok (s1, worker, err) =>
      match NextWorkers s1 calls with
      | .error e => .error e
      | .ok (s2, results) => .ok (s2, (worker, err) :: results)

/-- The states of a pool made by `NewServerPool` from the heap `heap` that are
reached by calls of `NextWorker` and by calls of `JoinQueue` on a worker the
caller has checked out; `out` lists the workers checked out, the pointers
returned without error by `NextWorker` and not yet given back. -/
inductive Reachable (chanLimit : Nat) (emailValidationService xssService : Service)
    (heap : List SMTPWorker) (maxWorkers : Int) : PoolState → List WorkerPtr → Prop where
  | init {s : PoolState} :
      NewServerPool chanLimit emailValidationService xssService heap maxWorkers = .ok s →
      Reachable chanLimit emailValidationService xssService heap maxWorkers s []
  | acquire {s s' : PoolState} {out : List WorkerPtr} {w : WorkerPtr} (connection : Conn)
      (receiver : MailItemChan) :
      Reachable chanLimit emailValidationService xssService heap maxWorkers s out →
      NextWorker s connection receiver = .ok (s', w, none) →
      Reachable chanLimit emailValidationService xssService heap maxWorkers s' (w :: out)
  | timeout {s s' : PoolState} {out : List WorkerPtr} {w : WorkerPtr} {e : PoolError}
      (connection : Conn) (receiver : MailItemChan) :
      Reachable chanLimit emailValidationService xssService heap maxWorkers s out →
      NextWorker s connection receiver = .ok (s', w, some e) →
      Reachable chanLimit emailValidationService xssService heap maxWorkers s' out
  | release {s s' : PoolState} {out : List WorkerPtr} (w : WorkerPtr) :
      Reachable chanLimit emailValidationService xssService heap maxWorkers s out →
      w ∈ out → JoinQueue s w = .ok s' →
      Reachable chanLimit emailValidationService xssService heap maxWorkers s' (out.erase w)

/-- The invariant of a pool of `n` workers allocated from the address `base`
on: the channel has capacity `n`, the queued and the checked-out pointers are
together the `n` addresses, each once, and each of them addresses a worker
whose id is its rank, from 1. -/
def PoolInv (base n : Nat) (s : PoolState) (out : List WorkerPtr) : Prop :=
  s.pool.capacity = n ∧ (s.pool.queue ++ out).Perm (List.range' base n) ∧
    ∀ i, i < n → workerID s.heap (base + i) = some ((i : Int) + 1)

/-! ## Lemmas on `cut`, `Split` and `Join` -/

theorem cut_nil_of_ne {sep : Str} (h : sep ≠ []) : cut sep [] = none := by
  simp [cut, h]

theorem cut_cons_pos {sep : Str} {c : Char} {s : Str} (hp : sep.isPrefixOf (c :: s) = true) :
    cut sep (c :: s) = some ([], (c :: s).drop sep.length) := by
  simp [cut, hp]

theorem cut_cons_neg {sep : Str} {c : Char} {s : Str} (hp : ¬ sep.isPrefixOf (c :: s) = true) :
    cut sep (c :: s) = (cut sep s).map (fun p => (c :: p.1, p.2)) := by
  simp [cut, hp]

theorem cut_sound {sep : Str} : ∀ {s a b : Str}, cut sep s = some (a, b) → s = a ++ sep ++ b
  | [], a, b, h => by
    by_cases hs : sep = []
    · simp [cut, hs] at h
      simp [h.1, h.2, hs]
    · simp [cut, hs] at h
  | c :: s, a, b, h => by
    by_cases hp : sep.isPrefixOf (c :: s) = true
    · rw [cut_cons_pos hp] at h
      simp only [Option.some.injEq, Prod.mk.injEq] at h
      obtain ⟨t, ht⟩ := List.isPrefixOf_iff_prefix.1 hp
      rw [← h.1, ← h.2, ← ht]
      simp
    · rw [cut_cons_neg hp, Option.map_eq_some'] at h
      obtain ⟨p, hp', h1⟩ := h
      simp only [Prod.mk.injEq] at h1
      have := cut_sound (s := s) (a := p.1) (b := p.2) hp'
      rw [← h1.1, ← h1.2, this]
      simp

theorem cut_minimal {sep : Str} : ∀ {s a b : Str}, cut sep s = some (a, b) →
    ∀ a' b' : Str, s = a' ++ sep ++ b' → a.length ≤ a'.length
  | [], a, b, h, a', b', _ => by
    by_cases hs : sep = []
    · simp [cut, hs] at h
      simp [h.1]
    · simp [cut, hs] at h
  | c :: s, a, b, h, a', b', h' => by
    by_cases hp : sep.isPrefixOf (c :: s) = true
    · rw [cut_cons_pos hp] at h
      simp only [Option.some.injEq, Prod.mk.injEq] at h
      simp [← h.1]
    · rw [cut_cons_neg hp, Option.map_eq_some'] at h
      obtain ⟨p, hp', h1⟩ := h
      simp only [Prod.mk.injEq] at h1
      cases a' with
      | nil =>
        exfalso
        apply hp
        rw [List.isPrefixOf_iff_prefix]
        exact ⟨b', by simpa using h'.symm⟩
      | cons d a'' =>
        simp only [List.cons_append, List.cons.injEq] at h'
        have := cut_minimal (s := s) (a := p.1) (b := p.2) hp' a'' b' (by simpa using h'.2)
        rw [← h1.1]
        simpa using this

theorem cut_complete {sep : Str} : ∀ {s a b : Str}, FirstOcc sep s a b → cut sep s = some (a, b)
  | [], a, b, h => by
    have h1 := h.1
    have : a = [] ∧ sep = [] ∧ b = [] := by
      simpa using h1
    simp [cut, this.1, this.2.1, this.2.2]
  | c :: s, a, b, h => by
    by_cases hp : sep.isPrefixOf (c :: s) = true
    · obtain ⟨t, ht⟩ := List.isPrefixOf_iff_prefix.1 hp
      have ha : a = [] := by
        have := h.2 [] t (by simpa using ht.symm)
        simpa [List.length_eq_zero] using this
      subst ha
      have hb : b = (c :: s).drop sep.length := by
        rw [h.1]; simp
      rw [cut_cons_pos hp, hb]
    · cases a with
      | nil =>
        exfalso
        apply hp
        rw [List.isPrefixOf_iff_prefix]
        exact ⟨b, by simpa using h.1.symm⟩
      | cons d a0 =>
        have h1 := h.1
        simp only [List.cons_append, List.cons.injEq] at h1
        have ih := cut_complete (s := s) (a := a0) (b := b)
          ⟨by simpa using h1.2, fun a' b' e => by
            have := h.2 (c :: a') b' (by simp [e])
            simpa using this⟩
        rw [cut_cons_neg hp, ih, h1.1]
        rfl

theorem cut_eq_some_iff {sep s a b : Str} : cut sep s = some (a, b) ↔ FirstOcc sep s a b :=
  ⟨fun h => ⟨cut_sound h, cut_minimal h⟩, cut_complete⟩

theorem cut_isSome_iff {sep : Str} : ∀ {s : Str}, (cut sep s).isSome = true ↔ sep <:+: s
  | [] => by
    by_cases hs : sep = []
    · simp [cut, hs]
    · simp [cut, hs]
  | c :: s => by
    by_cases hp : sep.isPrefixOf (c :: s) = true
    · rw [cut_cons_pos hp]
      simp only [Option.isSome_some, true_iff]
      exact (List.isPrefixOf_iff_prefix.1 hp).isInfix
    · have ih : (cut sep s).isSome = true ↔ sep <:+: s := cut_isSome_iff
      have hp' : ¬ sep <+: c :: s := fun h => hp (List.isPrefixOf_iff_prefix.2 h)
      rw [cut_cons_neg hp]
      simp only [Option.isSome_map', List.infix_cons_iff, hp', false_or]
      exact ih

theorem cut_eq_none_iff {sep s : Str} : cut sep s = none ↔ ¬ sep <:+: s := by
  rw [← cut_isSome_iff, Option.not_isSome_iff_eq_none]

theorem cut_length_lt {sep s a b : Str} (hsep : sep ≠ []) (h : cut sep s = some (a, b)) :
    b.length < s.length := by
  have h1 := congrArg List.length (cut_sound h)
  have h2 : 0 < sep.length := List.length_pos.2 hsep
  simp only [List.length_append] at h1
  omega

theorem splitN_fuel {sep : Str} (hsep : sep ≠ []) : ∀ (n m : Nat) (s : Str),
    s.length ≤ n → s.length ≤ m → splitN sep n s = splitN sep m s := by
  intro n
  induction n with
  | zero =>
    intro m s hn _
    have hs : s = [] := List.length_eq_zero.1 (Nat.le_zero.1 hn)
    subst hs
    cases m with
    | zero => rfl
    | succ m => simp [splitN, cut_nil_of_ne hsep]
  | succ n ih =>
    intro m s hn hm
    cases m with
    | zero =>
      have hs : s = [] := List.length_eq_zero.1 (Nat.le_zero.1 hm)
      subst hs
      simp [splitN, cut_nil_of_ne hsep]
    | succ m =>
      cases hc : cut sep s with
      | none => simp [splitN, hc]
      | some p =>
        obtain ⟨a, b⟩ := p
        have hlt := cut_length_lt hsep hc
        simp only [splitN, hc, List.cons.injEq, true_and]
        exact ih m b (by omega) (by omega)

theorem Split_of_cut_none {sep s : Str} (h : cut sep s = none) : Split s sep = [s] := by
  unfold Split
  cases s.length with
  | zero => rfl
  | succ n => simp [splitN, h]

theorem Split_of_cut_some {sep s a b : Str} (hsep : sep ≠ []) (h : cut sep s = some (a, b)) :
    Split s sep = a :: Split b sep := by
  have hlt := cut_length_lt hsep h
  unfold Split
  cases hn : s.length with
  | zero => omega
  | succ n =>
    simp only [splitN, h, List.cons.injEq, true_and]
    exact splitN_fuel hsep n b.length b (by omega) (le_refl _)

theorem Split_ne_nil (s sep : Str) : Split s sep ≠ [] := by
  unfold Split
  cases s.length with
  | zero => simp [splitN]
  | succ n =>
    cases hc : cut sep s with
    | none => simp [splitN, hc]
    | some p => simp [splitN, hc]

theorem Join_cons_cons (a b : Str) (r : List Str) (sep : Str) :
    Join (a :: b :: r) sep = a ++ sep ++ Join (b :: r) sep := by
  simp [Join, List.intercalate, List.intersperse]

theorem Join_singleton (a sep : Str) : Join [a] sep = a := by
  simp [Join, List.intercalate, List.intersperse]

theorem Join_nil (sep : Str) : Join [] sep = [] := by
  simp [Join, List.intercalate, List.intersperse]

theorem Join_cons_of_ne_nil (a : Str) {r : List Str} (hr : r ≠ []) (sep : Str) :
    Join (a :: r) sep = a ++ sep ++ Join r sep := by
  cases r with
  | nil => exact absurd rfl hr
  | cons b r => exact Join_cons_cons a b r sep

/-- Strong induction along the cuts of `Split`. -/
theorem split_induction {sep : Str} (hsep : sep ≠ []) (P : Str → Prop)
    (hnone : ∀ s, cut sep s = none → P s)
    (hsome : ∀ s a b, cut sep s = some (a, b) → P b → P s) : ∀ s, P s := by
  have key : ∀ n (s : Str), s.length ≤ n → P s := by
    intro n
    induction n with
    | zero =>
      intro s hs
      have hs : s = [] := List.length_eq_zero.1 (Nat.le_zero.1 hs)
      subst hs
      exact hnone [] (cut_nil_of_ne hsep)
    | succ n ih =>
      intro s hs
      cases hc : cut sep s with
      | none => exact hnone s hc
      | some p =>
        obtain ⟨a, b⟩ := p
        have hlt := cut_length_lt hsep hc
        exact hsome s a b hc (ih b (by omega))
  exact fun s => key s.length s (le_refl _)

/-- `Join` undoes `Split` on the same separator. -/
theorem Join_Split {sep : Str} (hsep : sep ≠ []) : ∀ s, Join (Split s sep) sep = s := by
  apply split_induction hsep
  · intro s hc
    rw [Split_of_cut_none hc, Join_singleton]
  · intro s a b hc ih
    rw [Split_of_cut_some hsep hc, Join_cons_of_ne_nil a (Split_ne_nil b sep), ih]
    exact (cut_sound hc).symm

/-- `Split` yields a single piece exactly when the separator does not occur. -/
theorem Split_length_lt_two_iff {sep : Str} (hsep : sep ≠ []) (s : Str) :
    (Split s sep).length < 2 ↔ ¬ sep <:+: s := by
  rw [← cut_eq_none_iff]
  cases hc : cut sep s with
  | none => simp [Split_of_cut_none hc]
  | some p =>
    obtain ⟨a, b⟩ := p
    have := List.length_pos.2 (Split_ne_nil b sep)
    simp [Split_of_cut_some hsep hc]
    omega

/-! ### Single-rune separators -/

theorem cut_single (c : Char) : ∀ s : Str,
    cut [c] s = if c ∈ s then some (before c s, after c s) else none
  | [] => by simp [cut]
  | d :: s => by
    by_cases hd : d = c
    · subst hd
      have hp : [d].isPrefixOf (d :: s) = true := by simp [List.isPrefixOf]
      rw [cut_cons_pos hp]
      simp [before, after]
    · have hp : ¬ [c].isPrefixOf (d :: s) = true := by
        simp [List.isPrefixOf]
        exact fun h => hd h.symm
      have hne : (d != c) = true := by simpa using hd
      rw [cut_cons_neg hp, cut_single c s]
      by_cases hc : c ∈ s
      · have : c ∈ d :: s := List.mem_cons_of_mem _ hc
        simp [hc, this, before, after, hne]
      · have : c ∉ d :: s := by
          simp only [List.mem_cons, not_or]
          exact ⟨fun h => hd h.symm, hc⟩
        simp [hc, this]

theorem after_of_not_mem {c : Char} {s : Str} (h : c ∉ s) : after c s = [] := by
  have : s.dropWhile (· != c) = [] := by
    rw [List.dropWhile_eq_nil_iff]
    intro x hx
    have : x ≠ c := fun e => h (e ▸ hx)
    simpa using this
  simp [after, this]

theorem before_of_not_mem {c : Char} {s : Str} (h : c ∉ s) : before c s = s := by
  rw [before, List.takeWhile_eq_self_iff]
  intro x hx
  have : x ≠ c := fun e => h (e ▸ hx)
  simpa using this

theorem before_append_after {c : Char} {s : Str} (h : c ∈ s) :
    before c s ++ c :: after c s = s := by
  have h1 := cut_single c s
  rw [if_pos h] at h1
  simpa using (cut_sound h1).symm

theorem not_mem_before (c : Char) (s : Str) : c ∉ before c s := by
  intro h
  have := List.mem_takeWhile_imp h
  simp at this

theorem before_append_cons {c : Char} {a : Str} (h : c ∉ a) (b : Str) :
    before c (a ++ c :: b) = a := by
  induction a with
  | nil => simp [before]
  | cons d a ih =>
    have hd : d ≠ c := fun e => h (by simp [e])
    have hne : (d != c) = true := by simpa using hd
    have ha : c ∉ a := fun e => h (List.mem_cons_of_mem _ e)
    have := ih ha
    simp only [before] at this ⊢
    simp [List.takeWhile, hne, this]

theorem after_append_cons {c : Char} {a : Str} (h : c ∉ a) (b : Str) :
    after c (a ++ c :: b) = b := by
  induction a with
  | nil => simp [after]
  | cons d a ih =>
    have hd : d ≠ c := fun e => h (by simp [e])
    have hne : (d != c) = true := by simpa using hd
    have ha : c ∉ a := fun e => h (List.mem_cons_of_mem _ e)
    have := ih ha
    simp only [after] at this ⊢
    simp [List.dropWhile, hne, this]

/-- The pieces of `Split s [c]`: the text before the first `c`, then the
pieces of the text after it. -/
theorem Split_single (c : Char) (s : Str) :
    Split s [c] = before c s :: (if c ∈ s then Split (after c s) [c] else []) := by
  have h1 := cut_single c s
  by_cases hc : c ∈ s
  · rw [if_pos hc] at h1
    rw [Split_of_cut_some (by simp) h1, if_pos hc]
  · rw [if_neg hc] at h1
    rw [Split_of_cut_none h1, if_neg hc, before_of_not_mem hc]

theorem index_Split_single (c : Char) (s : Str) :
    index (Split s [c]) 0 = some (before c s) := by
  rw [Split_single]; simp [index]

theorem sliceFrom_Split_single (c : Char) (s : Str) :
    sliceFrom (Split s [c]) 1 = some (if c ∈ s then Split (after c s) [c] else []) := by
  rw [Split_single]; simp [sliceFrom]

theorem length_Split_single (c : Char) (s : Str) :
    (Split s [c]).length > 1 ↔ c ∈ s := by
  rw [Split_single]
  by_cases hc : c ∈ s
  · have := List.length_pos.2 (Split_ne_nil (after c s) [c])
    simp [hc]
    omega
  · simp [hc]

/-- Joining the pieces that follow the first one, with the separator, gives
back the text after the first separator. -/
theorem Join_tail_Split_single (c : Char) (s : Str) :
    Join (if c ∈ s then Split (after c s) [c] else []) [c] = after c s := by
  by_cases hc : c ∈ s
  · rw [if_pos hc, Join_Split (by simp)]
  · rw [if_neg hc, Join_nil, after_of_not_mem hc]

theorem without_of_not_mem {c : Char} {s : Str} (h : c ∉ s) : without c s = s := by
  rw [without, List.filter_eq_self]
  intro x hx
  have : x ≠ c := fun e => h (e ▸ hx)
  simpa using this

theorem without_append (c : Char) (a b : Str) :
    without c (a ++ b) = without c a ++ without c b := by
  simp [without]

theorem without_cons_self (c : Char) (b : Str) : without c (c :: b) = without c b := by
  simp [without]

theorem not_mem_of_cut_single_none {c : Char} {s : Str} (hc : cut [c] s = none) : c ∉ s := by
  intro h
  rw [cut_single, if_pos h] at hc
  cases hc

theorem not_mem_of_cut_single_some {c : Char} {s a b : Str} (hc : cut [c] s = some (a, b)) :
    c ∉ a := by
  by_cases h : c ∈ s
  · rw [cut_single, if_pos h] at hc
    simp only [Option.some.injEq, Prod.mk.injEq] at hc
    rw [← hc.1]
    exact not_mem_before c s
  · rw [cut_single, if_neg h] at hc
    cases hc

/-- Joining the pieces of `Split s [c]` with the empty string deletes every `c`. -/
theorem Join_Split_single_empty (c : Char) : ∀ s : Str, Join (Split s [c]) [] = without c s := by
  apply @split_induction [c] (by simp)
  · intro s hc
    rw [Split_of_cut_none hc, Join_singleton, without_of_not_mem (not_mem_of_cut_single_none hc)]
  · intro s a b hc ih
    rw [Split_of_cut_some (by simp) hc, Join_cons_of_ne_nil a (Split_ne_nil b [c]), ih,
      cut_sound hc, without_append, without_append,
      without_of_not_mem (not_mem_of_cut_single_some hc)]
    simp [without]

theorem Join_tail_Split_single_empty (c : Char) (s : Str) :
    Join (if c ∈ s then Split (after c s) [c] else []) [] = without c (after c s) := by
  by_cases hc : c ∈ s
  · rw [if_pos hc, Join_Split_single_empty]
  · rw [if_neg hc, Join_nil, after_of_not_mem hc]; rfl

theorem Replace_single_empty (c : Char) (s : Str) : Replace s [c] [] = without c s :=
  Join_Split_single_empty c s

/-! ### Lines -/

theorem no_sep_in_cut {sep s a b : Str} (hsep : sep ≠ []) (h : cut sep s = some (a, b)) :
    ¬ sep <:+: a := by
  rintro ⟨x, y, hxy⟩
  have h1 := cut_sound h
  have h2 := cut_minimal h x (y ++ sep ++ b) (by rw [h1, ← hxy]; simp)
  have h3 := congrArg List.length hxy
  have h4 : 0 < sep.length := List.length_pos.2 hsep
  simp only [List.length_append] at h3
  omega

theorem no_sep_in_Split {sep : Str} (hsep : sep ≠ []) :
    ∀ s : Str, ∀ l ∈ Split s sep, ¬ sep <:+: l := by
  apply split_induction hsep
  · intro s hc l hl
    rw [Split_of_cut_none hc, List.mem_singleton] at hl
    rw [hl]
    exact cut_eq_none_iff.1 hc
  · intro s a b hc ih l hl
    rw [Split_of_cut_some hsep hc, List.mem_cons] at hl
    rcases hl with hl | hl
    · rw [hl]; exact no_sep_in_cut hsep hc
    · exact ih l hl

theorem cut_CRLF_append : ∀ {l : Str}, ¬ CRLF <:+: l → ∀ rest : Str,
    cut CRLF (l ++ CRLF ++ rest) = some (l, rest)
  | [], _, rest => by
    have hp : CRLF.isPrefixOf ('\r' :: '\n' :: rest) = true := by simp [CRLF, List.isPrefixOf]
    simpa [CRLF] using cut_cons_pos hp
  | [c], h, rest => by
    have hp : ¬ CRLF.isPrefixOf (c :: ([] ++ CRLF ++ rest)) = true := by
      simp [CRLF, List.isPrefixOf]
    have ih := cut_CRLF_append (l := []) (by simp [CRLF]) rest
    have e : [c] ++ CRLF ++ rest = c :: ([] ++ CRLF ++ rest) := by simp
    rw [e, cut_cons_neg hp, ih]
    rfl
  | c :: d :: l, h, rest => by
    have hp : ¬ CRLF.isPrefixOf (c :: (d :: l ++ CRLF ++ rest)) = true := by
      intro hp
      apply h
      simp only [CRLF, List.isPrefixOf, List.cons_append, Bool.and_eq_true, beq_iff_eq,
        Bool.and_true] at hp
      obtain ⟨rfl, rfl⟩ := hp
      exact ⟨[], l, rfl⟩
    have h' : ¬ CRLF <:+: d :: l := fun hi => h (List.infix_cons hi)
    have ih := cut_CRLF_append h' rest
    have e : c :: d :: l ++ CRLF ++ rest = c :: (d :: l ++ CRLF ++ rest) := by simp
    rw [e, cut_cons_neg hp, ih]
    rfl

theorem Split_Join_CRLF : ∀ lines : List Str, lines ≠ [] → (∀ l ∈ lines, ¬ CRLF <:+: l) →
    Split (Join lines CRLF) CRLF = lines
  | [], h, _ => absurd rfl h
  | [l], _, h => by
    rw [Join_singleton]
    exact Split_of_cut_none (cut_eq_none_iff.2 (h l (List.mem_singleton_self l)))
  | l :: m :: ls, _, h => by
    rw [Join_cons_cons, Split_of_cut_some (by simp [CRLF])
      (cut_CRLF_append (h l (List.mem_cons_self _ _)) _),
      Split_Join_CRLF (m :: ls) (by simp) (fun x hx => h x (List.mem_cons_of_mem _ hx))]

theorem Split_of_headerLines {hdr : Str} {lines : List Str} (h : HeaderLines hdr lines) :
    Split hdr CRLF = lines := by
  rw [h.2.2]
  exact Split_Join_CRLF lines h.1 h.2.1

theorem headerLines_Split (hdr : Str) : HeaderLines hdr (Split hdr CRLF) :=
  ⟨Split_ne_nil hdr CRLF, no_sep_in_Split (by simp [CRLF]) hdr,
    (Join_Split (by simp [CRLF]) hdr).symm⟩

/-! ### `ToLower`, `TrimSpace`, `Contains` -/

theorem ToLower_of_ascii {lower : Char → Char} (hl : GoLower lower) {s : Str}
    (hs : ∀ c ∈ s, c.toNat < 128) : ToLower lower s = s.map Char.toLower := by
  unfold ToLower
  exact List.map_congr_left (fun c hc => hl c (hs c hc))

theorem ToLower_append (lower : Char → Char) (a b : Str) :
    ToLower lower (a ++ b) = ToLower lower a ++ ToLower lower b := by
  simp [ToLower]

theorem TrimSpace_cons_of_space {c : Char} (hc : IsSpace c = true) (s : Str) :
    TrimSpace (c :: s) = TrimSpace s := by
  simp [TrimSpace, List.dropWhile, hc]

theorem Contains_iff_occurs {s sub : Str} : Contains s sub = true ↔ sub <:+: s :=
  cut_isSome_iff

theorem mem_of_occurs_cons {c : Char} {t s : Str} (h : c :: t <:+: s) : c ∈ s :=
  h.subset (List.mem_cons_self c t)

theorem no_CRLF_of_not_mem {s : Str} (h : '\r' ∉ s) : ¬ CRLF <:+: s :=
  fun hi => h (mem_of_occurs_cons hi)

theorem goLower_toLower : GoLower Char.toLower := fun _ _ => rfl

theorem headerSection_of_cut {contents hdr : Str} (body : Str)
    (h : cut CRLFCRLF contents = some (hdr, body)) : HeaderSection contents hdr :=
  ⟨body, cut_eq_some_iff.1 h⟩

theorem dropWhile_eq_nil_of_TrimSpace {s : Str} (h : TrimSpace s = []) :
    s.dropWhile IsSpace = [] := by
  unfold TrimSpace at h
  rw [List.reverse_eq_nil_iff, List.dropWhile_eq_nil_iff] at h
  cases hd : s.dropWhile IsSpace with
  | nil => rfl
  | cons c t =>
    exfalso
    have h1 : IsSpace c = true := h c (by rw [hd]; simp)
    have h2 := List.head_dropWhile_not IsSpace s (by rw [hd]; simp)
    simp only [hd, List.head_cons] at h2
    rw [h1] at h2
    cases h2

theorem all_space_of_TrimSpace {s : Str} (h : TrimSpace s = []) : ∀ c ∈ s, IsSpace c = true :=
  List.dropWhile_eq_nil_iff.1 (dropWhile_eq_nil_of_TrimSpace h)

theorem without_colon_of_TrimSpace {s : Str} (h : TrimSpace s = []) : without ':' s = s := by
  apply without_of_not_mem
  intro hc
  have := all_space_of_TrimSpace h _ hc
  revert this
  decide

/-! ## The parser, without `Split` and without panics -/

section ParserLemmas

variable (UnfoldHeaders ParseDateTime : Str → Str) (lower : Char → Char)

theorem parseLine_eq (this : MailHeader) (line : Str) :
    parseLine ParseDateTime lower this line = some (lineEffect ParseDateTime lower this line) := by
  simp only [parseLine, lineEffect, headerName, headerValue, index_Split_single,
    sliceFrom_Split_single, Option.some_bind, bind_pure_comp, Option.bind_eq_bind,
    Join_tail_Split_single, Join_tail_Split_single_empty, length_Split_single,
    Replace_single_empty, Option.map_some', Functor.map, pure]
  split_ifs <;> simp_all

theorem foldlM_parseLine (lines : List Str) : ∀ this : MailHeader,
    lines.foldlM (parseLine ParseDateTime lower) this
      = some (lines.foldl (lineEffect ParseDateTime lower) this) := by
  induction lines with
  | nil => intro this; rfl
  | cons l ls ih =>
    intro this
    rw [List.foldlM_cons, parseLine_eq, List.foldl_cons]
    exact ih _

/-- When the delimiter does not occur, `Parse` returns the error and leaves the
receiver reset. -/
theorem Parse_of_no_delimiter (this : MailHeader) (contents : Str)
    (h : ¬ CRLFCRLF <:+: contents) :
    Parse UnfoldHeaders ParseDateTime lower this contents
      = some (resetHeader this, some errNoBody) := by
  have hlen := (@Split_length_lt_two_iff CRLFCRLF (by simp [CRLFCRLF]) contents).2 h
  simp only [Parse, hlen, if_true]
  rfl

/-- When the delimiter occurs, `Parse` returns `nil` and the receiver is the
reset receiver run through the lines of the unfolded header section. -/
theorem Parse_of_headerSection (this : MailHeader) (contents hdr : Str)
    (h : HeaderSection contents hdr) :
    Parse UnfoldHeaders ParseDateTime lower this contents
      = some ((Split (UnfoldHeaders hdr) CRLF).foldl (lineEffect ParseDateTime lower)
          (resetHeader this), none) := by
  obtain ⟨body, hb⟩ := h
  have hc := cut_complete hb
  have hsplit := Split_of_cut_some (by simp [CRLFCRLF]) hc
  have hlen : ¬ (Split contents CRLFCRLF).length < 2 := by
    have := List.length_pos.2 (Split_ne_nil body CRLFCRLF)
    rw [hsplit, List.length_cons]
    omega
  rw [hsplit] at hlen
  simp only [Parse, hsplit, index, List.getElem?_cons_zero, Option.some_bind,
    Option.bind_eq_bind, foldlM_parseLine, pure]
  rw [if_neg hlen]
  rfl

theorem headerSection_of_delimiter {contents : Str} (h : CRLFCRLF <:+: contents) :
    ∃ hdr, HeaderSection contents hdr := by
  rw [← cut_isSome_iff, Option.isSome_iff_exists] at h
  obtain ⟨⟨a, b⟩, hab⟩ := h
  exact ⟨a, b, cut_eq_some_iff.1 hab⟩

theorem delimiter_of_headerSection {contents hdr : Str} (h : HeaderSection contents hdr) :
    CRLFCRLF <:+: contents := by
  obtain ⟨body, hb, _⟩ := h
  exact ⟨hdr, body, hb.symm⟩

/-! ### What one line does to each field -/

theorem lineEffect_XMailer (this : MailHeader) (line : Str) :
    (lineEffect ParseDateTime lower this line).XMailer = this.XMailer := by
  unfold lineEffect
  simp only
  split_ifs <;> rfl

theorem lineEffect_ContentType_of_ne (this : MailHeader) (line : Str)
    (h : ToLower lower (headerName line) ≠ "content-type".toList) :
    (lineEffect ParseDateTime lower this line).ContentType = this.ContentType := by
  unfold lineEffect
  simp only [h, if_false]
  split_ifs <;> rfl

theorem lineEffect_Boundary_of_ne (this : MailHeader) (line : Str)
    (h : ToLower lower (headerName line) ≠ "content-type".toList) :
    (lineEffect ParseDateTime lower this line).Boundary = this.Boundary := by
  unfold lineEffect
  simp only [h, if_false]
  split_ifs <;> rfl

theorem lineEffect_Date_of_ne (this : MailHeader) (line : Str)
    (h : ToLower lower (headerName line) ≠ "date".toList) :
    (lineEffect ParseDateTime lower this line).Date = this.Date := by
  unfold lineEffect
  simp only [h, if_false]
  split_ifs <;> rfl

theorem lineEffect_MIMEVersion_of_ne (this : MailHeader) (line : Str)
    (h : ToLower lower (headerName line) ≠ "mime-version".toList) :
    (lineEffect ParseDateTime lower this line).MIMEVersion = this.MIMEVersion := by
  unfold lineEffect
  simp only [h, if_false]
  split_ifs <;> rfl

theorem lineEffect_Subject_of_ne (this : MailHeader) (line : Str)
    (h : ToLower lower (headerName line) ≠ "subject".toList) :
    (lineEffect ParseDateTime lower this line).Subject = this.Subject := by
  unfold lineEffect
  simp only [h, if_false]
  split_ifs <;> rfl

theorem lineEffect_ContentType_of_eq (this : MailHeader) (line : Str)
    (h : ToLower lower (headerName line) = "content-type".toList) :
    (lineEffect ParseDateTime lower this line).ContentType
      = TrimSpace (before ';' (without ':' (headerValue line))) := by
  unfold lineEffect
  simp only [h, if_true]
  split_ifs <;> rfl

theorem lineEffect_Boundary_of_eq (this : MailHeader) (line : Str)
    (h : ToLower lower (headerName line) = "content-type".toList) :
    (lineEffect ParseDateTime lower this line).Boundary
      = if ';' ∈ without ':' (headerValue line) ∧
          Contains (ToLower lower (after ';' (without ':' (headerValue line))))
            "boundary".toList = true
        then without '"' (after '=' (after ';' (without ':' (headerValue line))))
        else this.Boundary := by
  unfold lineEffect
  simp only [h, if_true]
  split_ifs <;> rfl

theorem lineEffect_Date_of_eq (this : MailHeader) (line : Str)
    (h : ToLower lower (headerName line) = "date".toList) :
    (lineEffect ParseDateTime lower this line).Date = ParseDateTime (headerValue line) := by
  have h1 : "date".toList ≠ "content-type".toList := by decide
  unfold lineEffect
  simp only [h, h1, if_true, if_false]

theorem lineEffect_MIMEVersion_of_eq (this : MailHeader) (line : Str)
    (h : ToLower lower (headerName line) = "mime-version".toList) :
    (lineEffect ParseDateTime lower this line).MIMEVersion
      = TrimSpace (without ':' (headerValue line)) := by
  have h1 : "mime-version".toList ≠ "content-type".toList := by decide
  have h2 : "mime-version".toList ≠ "date".toList := by decide
  unfold lineEffect
  simp only [h, h1, h2, if_true, if_false]

theorem lineEffect_Subject_of_eq (this : MailHeader) (line : Str)
    (h : ToLower lower (headerName line) = "subject".toList) :
    (lineEffect ParseDateTime lower this line).Subject
      = if TrimSpace (without ':' (headerValue line)) = [] then "(No Subject)".toList
        else TrimSpace (without ':' (headerValue line)) := by
  have h1 : "subject".toList ≠ "content-type".toList := by decide
  have h2 : "subject".toList ≠ "date".toList := by decide
  have h3 : "subject".toList ≠ "mime-version".toList := by decide
  unfold lineEffect
  simp only [h, h1, h2, h3, if_true, if_false]

/-- A field (or any other view `f` of the receiver) that no line of `lines`
changes is the same after the loop. -/
theorem foldl_lineEffect_frame {α : Type} (f : MailHeader → α) (lines : List Str)
    (h : ∀ l ∈ lines, ∀ st, f (lineEffect ParseDateTime lower st l) = f st) :
    ∀ this, f (lines.foldl (lineEffect ParseDateTime lower) this) = f this := by
  induction lines with
  | nil => intro this; rfl
  | cons l ls ih =>
    intro this
    rw [List.foldl_cons, ih (fun x hx => h x (List.mem_cons_of_mem _ hx)),
      h l (List.mem_cons_self _ _)]

/-- A view `f` of the receiver that the line `l` sets to `v` whatever the
receiver was, and that no later line changes, is `v` after the loop. -/
theorem foldl_lineEffect_last {α : Type} (f : MailHeader → α) (pre post : List Str) (l : Str)
    (v : α) (hl : ∀ st, f (lineEffect ParseDateTime lower st l) = v)
    (h : ∀ x ∈ post, ∀ st, f (lineEffect ParseDateTime lower st x) = f st) (this : MailHeader) :
    f ((pre ++ l :: post).foldl (lineEffect ParseDateTime lower) this) = v := by
  rw [List.foldl_append, List.foldl_cons, foldl_lineEffect_frame ParseDateTime lower f post h, hl]

theorem lineEffect_of_not_recognised (this : MailHeader) (line : Str)
    (h : ¬ Recognised lower line) : lineEffect ParseDateTime lower this line = this := by
  simp only [Recognised, recognisedNames, List.mem_cons, List.mem_singleton, not_or,
    List.not_mem_nil, or_false] at h
  unfold lineEffect
  simp only [h.1, h.2.1, h.2.2.1, h.2.2.2, if_false]

theorem foldl_lineEffect_filter (lines : List Str) : ∀ this : MailHeader,
    (lines.filter (fun l => decide (Recognised lower l))).foldl (lineEffect ParseDateTime lower)
      this = lines.foldl (lineEffect ParseDateTime lower) this := by
  induction lines with
  | nil => intro this; rfl
  | cons l ls ih =>
    intro this
    by_cases h : Recognised lower l
    · rw [List.filter_cons_of_pos (by simpa using h), List.foldl_cons, List.foldl_cons, ih]
    · rw [List.filter_cons_of_neg (by simpa using h), List.foldl_cons,
        lineEffect_of_not_recognised ParseDateTime lower this l h, ih]

/-- The effect of a line depends on the line only through its lower-cased name
and its value. -/
theorem lineEffect_congr (this : MailHeader) {l l' : Str}
    (hn : ToLower lower (headerName l') = ToLower lower (headerName l))
    (hv : headerValue l' = headerValue l) :
    lineEffect ParseDateTime lower this l' = lineEffect ParseDateTime lower this l := by
  unfold lineEffect
  rw [hn, hv]

theorem headerName_append {n rest : Str} (hn : ':' ∉ n) (hrest : rest = [] ∨ ∃ v, rest = ':' :: v) :
    headerName (n ++ rest) = n := by
  rcases hrest with h | ⟨v, h⟩
  · rw [h, List.append_nil]; exact before_of_not_mem hn
  · rw [h]; exact before_append_cons hn v

theorem headerValue_append {n rest : Str} (hn : ':' ∉ n)
    (hrest : rest = [] ∨ ∃ v, rest = ':' :: v) : headerValue (n ++ rest) = rest.drop 1 := by
  rcases hrest with h | ⟨v, h⟩
  · rw [h, List.append_nil]; exact after_of_not_mem hn
  · rw [h]; exact after_append_cons hn v

/-! ### Removing earlier lines of a name -/

/-- Two receivers that agree on the view `f`, or any two receivers when some
line of `lines` writes `f`, agree on `f` after the loop. Here `W` tells the
lines that write `f`: they set it to a value that does not depend on the
receiver, and the other lines keep it. -/
theorem foldl_lineEffect_agree {α : Type} (f : MailHeader → α) (W : Str → Prop)
    (hkeep : ∀ l, ¬ W l → ∀ st, f (lineEffect ParseDateTime lower st l) = f st)
    (hset : ∀ l, W l → ∀ st st', f (lineEffect ParseDateTime lower st l)
      = f (lineEffect ParseDateTime lower st' l))
    (lines : List Str) : ∀ st st' : MailHeader, (f st = f st' ∨ ∃ l ∈ lines, W l) →
      f (lines.foldl (lineEffect ParseDateTime lower) st)
        = f (lines.foldl (lineEffect ParseDateTime lower) st') := by
  induction lines with
  | nil =>
    intro st st' h
    rcases h with h | ⟨l, hl, _⟩
    · exact h
    · cases hl
  | cons l ls ih =>
    intro st st' h
    rw [List.foldl_cons, List.foldl_cons]
    apply ih
    by_cases hls : ∃ x ∈ ls, W x
    · exact Or.inr hls
    · left
      by_cases hl : W l
      · exact hset l hl st st'
      · rw [hkeep l hl, hkeep l hl]
        rcases h with h | ⟨x, hx, hxW⟩
        · exact h
        · rcases List.mem_cons.1 hx with e | e
          · exact absurd (e ▸ hxW) hl
          · exact absurd ⟨x, e, hxW⟩ hls

/-- Removing every line that satisfies `p` but the last keeps the view `f`,
provided each removed line that writes `f` is followed by a line that writes
`f`. -/
theorem foldl_lineEffect_dropEarlier {α : Type} (f : MailHeader → α) (W : Str → Prop)
    (p : Str → Bool)
    (hkeep : ∀ l, ¬ W l → ∀ st, f (lineEffect ParseDateTime lower st l) = f st)
    (hset : ∀ l, W l → ∀ st st', f (lineEffect ParseDateTime lower st l)
      = f (lineEffect ParseDateTime lower st' l))
    (lines : List Str) :
    (∀ (pre : List Str) (l : Str) (post : List Str), lines = pre ++ l :: post → p l = true →
      post.any p = true → W l → ∃ x ∈ post, W x) →
    ∀ st : MailHeader, f ((dropEarlier p lines).foldl (lineEffect ParseDateTime lower) st)
      = f (lines.foldl (lineEffect ParseDateTime lower) st) := by
  induction lines with
  | nil => intro _ st; rfl
  | cons l ls ih =>
    intro hrem st
    have hrem' : ∀ (pre : List Str) (x : Str) (post : List Str), ls = pre ++ x :: post →
        p x = true → post.any p = true → W x → ∃ y ∈ post, W y :=
      fun pre x post e => hrem (l :: pre) x post (by rw [e]; rfl)
    by_cases hc : (p l && ls.any p) = true
    · have hd : dropEarlier p (l :: ls) = dropEarlier p ls := by simp [dropEarlier, hc]
      rw [hd, ih hrem' st, List.foldl_cons]
      apply foldl_lineEffect_agree ParseDateTime lower f W hkeep hset
      rw [Bool.and_eq_true] at hc
      by_cases hl : W l
      · exact Or.inr (hrem [] l ls rfl hc.1 hc.2 hl)
      · exact Or.inl (hkeep l hl st).symm
    · have hd : dropEarlier p (l :: ls) = l :: dropEarlier p ls := by simp [dropEarlier, hc]
      rw [hd, List.foldl_cons, List.foldl_cons]
      exact ih hrem' _

/-- The case of `foldl_lineEffect_dropEarlier` where `f` is written by the lines
of one name and the lines removed are those of one name. -/
theorem foldl_lineEffect_dropEarlier_name {α : Type} (f : MailHeader → α) (w name : Str)
    (hkeep : ∀ l, ToLower lower (headerName l) ≠ w →
      ∀ st, f (lineEffect ParseDateTime lower st l) = f st)
    (hset : ∀ l, ToLower lower (headerName l) = w → ∀ st st',
      f (lineEffect ParseDateTime lower st l) = f (lineEffect ParseDateTime lower st' l))
    (lines : List Str) (st : MailHeader) :
    f ((dropEarlier (hasName lower name) lines).foldl (lineEffect ParseDateTime lower) st)
      = f (lines.foldl (lineEffect ParseDateTime lower) st) := by
  apply foldl_lineEffect_dropEarlier ParseDateTime lower f
    (fun l => ToLower lower (headerName l) = w) (hasName lower name) hkeep hset
  intro pre l post _ hl hpost hW
  obtain ⟨x, hx, hxp⟩ := List.any_eq_true.1 hpost
  refine ⟨x, hx, ?_⟩
  simp only [hasName, decide_eq_true_eq] at hl hxp
  rw [hxp, ← hl]
  exact hW

/-- The last line that satisfies `p` lies after every line that satisfies `p`
and is followed by one. -/
theorem last_filter_mem_post {p : Str → Bool} (pre : List Str) {post : List Str} {l : Str}
    (hl : p l = true) (hpost : post.any p = true) :
    ∃ x ∈ post, p x = true ∧ ((pre ++ l :: post).filter p).getLast? = some x := by
  obtain ⟨y, hy, hyp⟩ := List.any_eq_true.1 hpost
  have hne : post.filter p ≠ [] := List.ne_nil_of_mem (List.mem_filter.2 ⟨hy, hyp⟩)
  have hmem := List.getLast_mem hne
  rw [List.mem_filter] at hmem
  refine ⟨_, hmem.1, hmem.2, ?_⟩
  have e : (pre ++ l :: post).filter p = (pre.filter p ++ [l]) ++ post.filter p := by
    simp [List.filter_append, List.filter_cons, hl]
  rw [e, List.getLast?_append_of_ne_nil _ hne, List.getLast?_eq_getLast _ hne]

theorem mem_droppedLines {p : Str → Bool} : ∀ (pre : List Str) {l : Str} {post : List Str},
    p l = true → post.any p = true → l ∈ droppedLines p (pre ++ l :: post)
  | [], l, post, hl, hpost => by
    simp [droppedLines, hl, hpost]
  | x :: pre, l, post, hl, hpost => by
    have ih := mem_droppedLines pre hl hpost
    simp only [List.cons_append, droppedLines]
    split_ifs
    · exact List.mem_cons_of_mem _ ih
    · exact ih

theorem mem_of_mem_dropEarlier {p : Str → Bool} {l : Str} : ∀ {lines : List Str},
    l ∈ dropEarlier p lines → l ∈ lines
  | [], h => by simp [dropEarlier] at h
  | x :: xs, h => by
    simp only [dropEarlier] at h
    split_ifs at h
    · exact List.mem_cons_of_mem _ (mem_of_mem_dropEarlier h)
    · rcases List.mem_cons.1 h with e | e
      · rw [e]; exact List.mem_cons_self _ _
      · exact List.mem_cons_of_mem _ (mem_of_mem_dropEarlier e)

/-- A line that satisfies `p` and that `dropEarlier p` keeps is the last line
that satisfies `p`. -/
theorem last_of_mem_dropEarlier {p : Str → Bool} {l : Str} : ∀ {lines : List Str},
    l ∈ dropEarlier p lines → p l = true → (lines.filter p).getLast? = some l
  | [], h, _ => by simp [dropEarlier] at h
  | x :: xs, h, hl => by
    by_cases hc : (p x && xs.any p) = true
    · have hd : dropEarlier p (x :: xs) = dropEarlier p xs := by simp [dropEarlier, hc]
      rw [hd] at h
      have ih := last_of_mem_dropEarlier h hl
      rw [Bool.and_eq_true] at hc
      have hne : xs.filter p ≠ [] := fun e => by rw [e] at ih; cases ih
      have e : (x :: xs).filter p = [x] ++ xs.filter p := by simp [List.filter_cons, hc.1]
      rw [e, List.getLast?_append_of_ne_nil _ hne]
      exact ih
    · have hd : dropEarlier p (x :: xs) = x :: dropEarlier p xs := by simp [dropEarlier, hc]
      rw [hd] at h
      by_cases hx : p x = true
      · have hany : xs.any p = false := by
          cases ha : xs.any p
          · rfl
          · exact absurd (by rw [hx, ha]; rfl) hc
        have hnil : xs.filter p = [] := by
          rw [List.filter_eq_nil_iff]
          exact List.any_eq_false.1 hany
        have hlx : l = x := by
          rcases List.mem_cons.1 h with e | e
          · exact e
          · have := List.any_eq_false.1 hany l (mem_of_mem_dropEarlier e)
            exact absurd hl this
        simp [List.filter_cons, hx, hnil, hlx]
      · have hlx : l ∈ dropEarlier p xs := by
          rcases List.mem_cons.1 h with e | e
          · rw [e] at hl; exact absurd hl hx
          · exact e
        have e : (x :: xs).filter p = xs.filter p := by simp [List.filter_cons, hx]
        rw [e]
        exact last_of_mem_dropEarlier hlx hl

theorem occurs_of_occurs_before (lower : Char → Char) {sub : Str} (c : Char) {r : Str}
    (h : sub <:+: ToLower lower (before c r)) : sub <:+: ToLower lower r :=
  h.trans ((List.takeWhile_prefix _).map lower).isInfix

theorem lineEffect_Boundary_keep (l : Str) (h : ¬ assignsBoundary lower l) (st : MailHeader) :
    (lineEffect ParseDateTime lower st l).Boundary = st.Boundary := by
  by_cases hk : ToLower lower (headerName l) = "content-type".toList
  · rw [lineEffect_Boundary_of_eq ParseDateTime lower st l hk, if_neg (fun hc => h ⟨hk, hc⟩)]
  · exact lineEffect_Boundary_of_ne ParseDateTime lower st l hk

theorem lineEffect_Boundary_assign (l : Str) (h : assignsBoundary lower l)
    (st st' : MailHeader) :
    (lineEffect ParseDateTime lower st l).Boundary
      = (lineEffect ParseDateTime lower st' l).Boundary := by
  rw [lineEffect_Boundary_of_eq ParseDateTime lower st l h.1, if_pos h.2,
    lineEffect_Boundary_of_eq ParseDateTime lower st' l h.1, if_pos h.2]

theorem assignsBoundary_of_declares {l : Str}
    (hk : ToLower lower (headerName l) = "content-type".toList)
    (h : DeclaresBoundary lower l) : assignsBoundary lower l := by
  obtain ⟨h1, h2, h3⟩ := h
  refine ⟨hk, ?_⟩
  rw [without_of_not_mem h1]
  exact ⟨h2, Contains_iff_occurs.2 (occurs_of_occurs_before lower ';' h3)⟩

theorem not_assignsBoundary_of_declaresNo {l : Str} (h : DeclaresNoBoundary lower l) :
    ¬ assignsBoundary lower l := by
  obtain ⟨h1, h2⟩ := h
  intro hW
  have hW2 := hW.2
  rw [without_of_not_mem h1] at hW2
  exact h2 ⟨hW2.1, Contains_iff_occurs.1 hW2.2⟩

theorem hasName_iff {name l : Str} :
    hasName lower name l = true ↔ ToLower lower (headerName l) = name := by
  simp [hasName]

/-- Removing the earlier lines of a name keeps `Boundary` when the name is not
Content-Type, when the last line of the name assigns `Boundary`, or when no
removed line assigns it. -/
theorem foldl_Boundary_dropEarlier (name : Str) (lines : List Str)
    (h : name ≠ "content-type".toList ∨
      (∀ l, (lines.filter (hasName lower name)).getLast? = some l → assignsBoundary lower l) ∨
      (∀ l ∈ droppedLines (hasName lower name) lines, ¬ assignsBoundary lower l))
    (st : MailHeader) :
    ((dropEarlier (hasName lower name) lines).foldl (lineEffect ParseDateTime lower) st).Boundary
      = (lines.foldl (lineEffect ParseDateTime lower) st).Boundary := by
  apply foldl_lineEffect_dropEarlier ParseDateTime lower (fun st => st.Boundary)
    (assignsBoundary lower) (hasName lower name)
    (fun l hl st => lineEffect_Boundary_keep ParseDateTime lower l hl st)
    (fun l hl st st' => lineEffect_Boundary_assign ParseDateTime lower l hl st st')
  intro pre l post hdec hl hpost hW
  rcases h with hne | hlast | hnone
  · exact absurd (((hasName_iff lower).1 hl).symm.trans hW.1) hne
  · obtain ⟨x, hx, _, hxl⟩ := last_filter_mem_post pre hl hpost
    rw [← hdec] at hxl
    exact ⟨x, hx, hlast x hxl⟩
  · exact absurd hW (hnone l (by rw [hdec]; exact mem_droppedLines pre hl hpost))

/-- With the earlier lines of the name Content-Type removed, `Boundary` is left
as it was when the last Content-Type line does not assign it. -/
theorem foldl_Boundary_dropEarlier_keep (lines : List Str)
    (h : ∀ l, (lines.filter (hasName lower "content-type".toList)).getLast? = some l →
      ¬ assignsBoundary lower l) (st : MailHeader) :
    ((dropEarlier (hasName lower "content-type".toList) lines).foldl
        (lineEffect ParseDateTime lower) st).Boundary = st.Boundary := by
  apply foldl_lineEffect_frame ParseDateTime lower (fun st => st.Boundary)
  intro x hx st
  apply lineEffect_Boundary_keep
  intro hW
  exact h x (last_of_mem_dropEarlier hx ((hasName_iff lower).2 hW.1)) hW

/-- With the earlier lines of a name removed, `Boundary` is the same or is left
as it was before the loop. -/
theorem foldl_Boundary_dropEarlier_or (name : Str) (lines : List Str) (st : MailHeader) :
    ((dropEarlier (hasName lower name) lines).foldl (lineEffect ParseDateTime lower) st).Boundary
        = (lines.foldl (lineEffect ParseDateTime lower) st).Boundary ∨
    ((dropEarlier (hasName lower name) lines).foldl (lineEffect ParseDateTime lower) st).Boundary
        = st.Boundary := by
  by_cases hn : name = "content-type".toList
  · by_cases hW : ∀ l, (lines.filter (hasName lower name)).getLast? = some l →
        assignsBoundary lower l
    · exact Or.inl (foldl_Boundary_dropEarlier ParseDateTime lower name lines
        (Or.inr (Or.inl hW)) st)
    · right
      rw [not_forall] at hW
      obtain ⟨l0, hl0⟩ := hW
      rw [Classical.not_imp] at hl0
      subst hn
      apply foldl_Boundary_dropEarlier_keep
      intro l hl
      have : l = l0 := Option.some.inj (hl.symm.trans hl0.1)
      rw [this]
      exact hl0.2
  · exact Or.inl (foldl_Boundary_dropEarlier ParseDateTime lower name lines (Or.inl hn) st)

end ParserLemmas

/-! ## The pool: lemmas -/

section PoolLemmas

variable (chanLimit : Nat) (emailValidationService xssService : Service)

theorem JoinQueue_of_lt {s : PoolState} (w : WorkerPtr)
    (h : s.pool.queue.length < s.pool.capacity) :
    JoinQueue s w = .ok { s with pool := { s.pool with queue := s.pool.queue ++ [w] } } := by
  simp [JoinQueue, h]

theorem JoinQueue_ok {s s' : PoolState} {w : WorkerPtr} (h : JoinQueue s w = .ok s') :
    s.pool.queue.length < s.pool.capacity ∧
      s' = { s with pool := { s.pool with queue := s.pool.queue ++ [w] } } := by
  unfold JoinQueue at h
  split_ifs at h with hlt
  · injection h with h
    exact ⟨hlt, h.symm⟩

/-- The loop of `NewServerPool` with `k` passes left, on a channel with room for
`k` more pointers: it allocates `k` workers and queues them in order. -/
theorem newServerPoolLoop_eq : ∀ (k : Nat) (index : Int) (s : PoolState),
    s.pool.queue.length + k ≤ s.pool.capacity →
    newServerPoolLoop emailValidationService xssService k index s
      = .ok { heap := s.heap ++ (List.range k).map (fun j : Nat =>
                { emptyWorker with
                  WorkerID := index + 1 + (j : Int)
                  EmailValidationService := some emailValidationService
                  XSSService := some xssService }),
              pool := { capacity := s.pool.capacity,
                        queue := s.pool.queue ++ List.range' s.heap.length k } } := by
  intro k
  induction k with
  | zero =>
    intro index s _
    simp [newServerPoolLoop]
  | succ k ih =>
    intro index s h
    have hlt : s.pool.queue.length < s.pool.capacity := by omega
    simp only [newServerPoolLoop, NewSMTPWorker, allocate]
    rw [JoinQueue_of_lt _ (by simpa using hlt)]
    simp only
    rw [ih (index + 1) _ (by simp; omega)]
    simp only [List.length_append, List.length_singleton, List.append_assoc,
      List.singleton_append, List.range_succ_eq_map, List.map_cons, List.map_map,
      List.range'_succ, Nat.cast_zero, add_zero]
    congr 4
    apply List.map_congr_left
    intro j _
    simp only [Function.comp, Nat.cast_succ]
    congr 1
    ring

theorem NewServerPool_eq (heap : List SMTPWorker) {maxWorkers : Int} (h : 0 ≤ maxWorkers)
    (hmax : maxWorkers ≤ (chanLimit : Int)) :
    NewServerPool chanLimit emailValidationService xssService heap maxWorkers
      = .ok { heap := heap ++ (List.range maxWorkers.toNat).map (fun j : Nat =>
                { emptyWorker with
                  WorkerID := 0 + 1 + (j : Int)
                  EmailValidationService := some emailValidationService
                  XSSService := some xssService }),
              pool := { capacity := maxWorkers.toNat,
                        queue := List.range' heap.length maxWorkers.toNat } } := by
  have hn : ¬ (maxWorkers < 0 ∨ (chanLimit : Int) < maxWorkers) := by omega
  simp only [NewServerPool, hn, if_false]
  rw [newServerPoolLoop_eq _ _ _ _ _ (by simp)]
  simp

theorem NewServerPool_range {heap : List SMTPWorker} {maxWorkers : Int} {s : PoolState}
    (h : NewServerPool chanLimit emailValidationService xssService heap maxWorkers = .ok s) :
    0 ≤ maxWorkers ∧ maxWorkers ≤ (chanLimit : Int) := by
  by_contra hn
  have : maxWorkers < 0 ∨ (chanLimit : Int) < maxWorkers := by omega
  simp [NewServerPool, this] at h

theorem NewServerPool_panic (heap : List SMTPWorker) {maxWorkers : Int}
    (h : maxWorkers < 0 ∨ (chanLimit : Int) < maxWorkers) :
    NewServerPool chanLimit emailValidationService xssService heap maxWorkers
      = .error Stuck.panic := by
  simp [NewServerPool, h]

theorem workerID_lt {heap : List SMTPWorker} {p : WorkerPtr} {v : Int}
    (h : workerID heap p = some v) : p < heap.length := by
  unfold workerID at h
  by_contra hn
  rw [List.getElem?_eq_none (Nat.le_of_not_lt hn)] at h
  cases h

theorem workerID_append_left {heap : List SMTPWorker} {p : WorkerPtr} (h : p < heap.length)
    (more : List SMTPWorker) : workerID (heap ++ more) p = workerID heap p := by
  unfold workerID
  rw [List.getElem?_append_left h]

theorem Prepare_of_lt {heap : List SMTPWorker} {w : WorkerPtr} (h : w < heap.length)
    (connection : Conn) (receiver : MailItemChan) (reader : SMTPReader) (writer : SMTPWriter) :
    ∃ heap', Prepare heap w connection receiver reader writer = .ok heap' ∧
      heap'.length = heap.length ∧ ∀ p, workerID heap' p = workerID heap p := by
  have hw : heap[w]? = some heap[w] := List.getElem?_eq_getElem h
  have hp : Prepare heap w connection receiver reader writer
      = .ok (heap.set w
          { heap[w] with
            Connection := some connection
            Receiver := some receiver
            Reader := some reader
            Writer := some writer }) := by
    simp only [Prepare, hw]
  refine ⟨_, hp, by simp, ?_⟩
  intro p
  unfold workerID
  rw [List.getElem?_set]
  by_cases e : w = p
  · subst e
    simp [h, hw]
  · simp [e]

theorem Prepare_ok {heap heap' : List SMTPWorker} {w : WorkerPtr} {connection : Conn}
    {receiver : MailItemChan} {reader : SMTPReader} {writer : SMTPWriter}
    (h : Prepare heap w connection receiver reader writer = .ok heap') : w < heap.length := by
  by_contra hn
  have : heap[w]? = none := List.getElem?_eq_none (Nat.le_of_not_lt hn)
  simp [Prepare, this] at h

theorem NextWorker_cons {s : PoolState} {w : WorkerPtr} {rest : List WorkerPtr}
    (hq : s.pool.queue = w :: rest) (hw : w < s.heap.length) (connection : Conn)
    (receiver : MailItemChan) :
    ∃ heap', NextWorker s connection receiver
        = .ok ({ heap := heap', pool := { s.pool with queue := rest } }, w, none) ∧
      heap'.length = s.heap.length ∧ ∀ p, workerID heap' p = workerID s.heap p := by
  obtain ⟨heap', hp, hlen, hid⟩ := Prepare_of_lt hw connection receiver
    { Connection := connection } { Connection := connection }
  refine ⟨heap', ?_, hlen, hid⟩
  simp only [NextWorker, hq, hp]

theorem NextWorker_nil {s : PoolState} (hq : s.pool.queue = []) (connection : Conn)
    (receiver : MailItemChan) :
    NextWorker s connection receiver
      = .ok ({ s with heap := s.heap ++ [emptyWorker] }, s.heap.length,
          some PoolError.NoWorkerAvailable) := by
  simp only [NextWorker, hq, allocate]

theorem NextWorker_ok_none {s s' : PoolState} {w : WorkerPtr} {connection : Conn}
    {receiver : MailItemChan} (h : NextWorker s connection receiver = .ok (s', w, none)) :
    ∃ rest, s.pool.queue = w :: rest ∧ s'.pool = { s.pool with queue := rest } ∧
      s'.heap.length = s.heap.length ∧ ∀ p, workerID s'.heap p = workerID s.heap p := by
  cases hq : s.pool.queue with
  | nil =>
    rw [NextWorker_nil hq] at h
    simp at h
  | cons v rest =>
    have hv : v < s.heap.length := by
      by_contra hn
      have : s.heap[v]? = none := List.getElem?_eq_none (Nat.le_of_not_lt hn)
      simp [NextWorker, hq, Prepare, this] at h
    obtain ⟨heap', hp, hlen, hid⟩ := NextWorker_cons hq hv connection receiver
    rw [hp] at h
    simp only [Except.ok.injEq, Prod.mk.injEq, and_true] at h
    obtain ⟨h1, h2⟩ := h
    subst h1
    subst h2
    exact ⟨rest, rfl, rfl, hlen, hid⟩

theorem NextWorker_ok_some {s s' : PoolState} {w : WorkerPtr} {e : PoolError} {connection : Conn}
    {receiver : MailItemChan} (h : NextWorker s connection receiver = .ok (s', w, some e)) :
    s.pool.queue = [] ∧ s' = { s with heap := s.heap ++ [emptyWorker] } ∧ w = s.heap.length := by
  cases hq : s.pool.queue with
  | nil =>
    rw [NextWorker_nil hq] at h
    simp only [Except.ok.injEq, Prod.mk.injEq] at h
    exact ⟨rfl, h.1.symm, h.2.1.symm⟩
  | cons v rest =>
    exfalso
    by_cases hv : v < s.heap.length
    · obtain ⟨heap', hp, _⟩ := NextWorker_cons hq hv connection receiver
      rw [hp] at h
      simp at h
    · have : s.heap[v]? = none := List.getElem?_eq_none (Nat.le_of_not_lt hv)
      simp [NextWorker, hq, Prepare, this] at h

/-- Every reachable state satisfies the invariant of the pool. -/
theorem poolInv_of_reachable {heap : List SMTPWorker} {maxWorkers : Int} {s : PoolState}
    {out : List WorkerPtr}
    (h : Reachable chanLimit emailValidationService xssService heap maxWorkers s out) :
    PoolInv heap.length maxWorkers.toNat s out := by
  induction h with
  | init h0 =>
    have hn := NewServerPool_range chanLimit emailValidationService xssService h0
    rw [NewServerPool_eq chanLimit emailValidationService xssService heap hn.1 hn.2] at h0
    injection h0 with h0
    subst h0
    refine ⟨rfl, by simp, ?_⟩
    intro i hi
    unfold workerID
    rw [List.getElem?_append_right (Nat.le_add_right _ _), Nat.add_sub_cancel_left,
      List.getElem?_map, List.getElem?_range hi]
    simp only [Option.map_some', Option.some.injEq]
    ring
  | acquire connection receiver _ hnext ih =>
    obtain ⟨rest, hq, hpool, _, hid⟩ := NextWorker_ok_none hnext
    obtain ⟨hcap, hperm, hids⟩ := ih
    refine ⟨by rw [hpool]; exact hcap, ?_, fun i hi => by rw [hid]; exact hids i hi⟩
    rw [hpool]
    rw [hq] at hperm
    exact (List.perm_middle).trans hperm
  | timeout connection receiver _ hnext ih =>
    obtain ⟨_, hs, _⟩ := NextWorker_ok_some hnext
    obtain ⟨hcap, hperm, hids⟩ := ih
    subst hs
    refine ⟨hcap, hperm, fun i hi => ?_⟩
    have := hids i hi
    rw [workerID_append_left (workerID_lt this)]
    exact this
  | release w _ hw hjoin ih =>
    obtain ⟨_, hs⟩ := JoinQueue_ok hjoin
    obtain ⟨hcap, hperm, hids⟩ := ih
    subst hs
    refine ⟨hcap, ?_, hids⟩
    simp only [List.append_assoc, List.singleton_append]
    exact (List.Perm.append_left _ (List.perm_cons_erase hw).symm).trans hperm

theorem poolInv_length {base n : Nat} {s : PoolState} {out : List WorkerPtr}
    (h : PoolInv base n s out) : s.pool.queue.length + out.length = n := by
  have := h.2.1.length_eq
  simpa using this

theorem poolInv_lt {base n : Nat} {s : PoolState} {out : List WorkerPtr}
    (h : PoolInv base n s out) {w : Nat} (hw : w ∈ s.pool.queue ++ out) :
    w < s.heap.length ∧ base ≤ w ∧ w < base + n := by
  have hr := (h.2.1.mem_iff).1 hw
  rw [List.mem_range'_1] at hr
  obtain ⟨i, hi⟩ : ∃ i, w = base + i := ⟨w - base, by omega⟩
  have := h.2.2 i (by omega)
  rw [← hi] at this
  exact ⟨workerID_lt this, hr.1, hr.2⟩

/-- As long as there are at least as many queued workers as calls, successive
calls of `NextWorker` return the queued pointers in the order of the queue,
each without error, and leave the rest of the queue. -/
theorem NextWorkers_take : ∀ (calls : List (Conn × MailItemChan)) (s : PoolState),
    (∀ w ∈ s.pool.queue, w < s.heap.length) → calls.length ≤ s.pool.queue.length →
    ∃ s', NextWorkers s calls
        = .ok (s', (s.pool.queue.take calls.length).map (fun w => (w, none))) ∧
      s'.pool = { s.pool with queue := s.pool.queue.drop calls.length } ∧
      ∀ p, workerID s'.heap p = workerID s.heap p := by
  intro calls
  induction calls with
  | nil =>
    intro s _ _
    exact ⟨s, by simp [NextWorkers], by simp, fun _ => rfl⟩
  | cons c calls ih =>
    intro s hvalid hlen
    obtain ⟨connection, receiver⟩ := c
    cases hq : s.pool.queue with
    | nil => rw [hq] at hlen; simp at hlen
    | cons w rest =>
      have hw : w < s.heap.length := hvalid w (by rw [hq]; exact List.mem_cons_self _ _)
      obtain ⟨heap', hnext, hlen', hid⟩ := NextWorker_cons hq hw connection receiver
      have hvalid' : ∀ v ∈ rest, v < heap'.length := fun v hv => by
        rw [hlen']
        exact hvalid v (by rw [hq]; exact List.mem_cons_of_mem _ hv)
      have hlen2 : calls.length ≤ rest.length := by
        rw [hq] at hlen
        simpa using hlen
      obtain ⟨s', hrec, hpool, hid'⟩ :=
        ih { heap := heap', pool := { s.pool with queue := rest } } hvalid' hlen2
      refine ⟨s', ?_, ?_, fun p => (hid' p).trans (hid p)⟩
      · simp only [NextWorkers, hnext, hrec]
        simp
      · rw [hpool]
        simp

end PoolLemmas

/-! ## Theorems about `Parse`

The theorems hold for every `UnfoldHeaders`, `ParseDateTime` and `lower`. The
closed statements (evaluations on a concrete DATA block) take the identity for
`UnfoldHeaders` and `ParseDateTime` and `Char.toLower` for `lower`: their blocks
are ASCII, have no continuation line, so that unfolding has nothing to merge,
and, but for the one on `Date`, have no Date line. -/

section Claims

variable (UnfoldHeaders ParseDateTime : Str → Str) (lower : Char → Char)

/-- C1: `Parse` returns the malformed-message error exactly when the DATA block
has no occurrence of CR LF CR LF, and returns `nil` exactly when it has one;
it has no other outcome. -/
theorem Parse_error_iff_no_delimiter (this : MailHeader) (contents : Str) :
    ((Parse UnfoldHeaders ParseDateTime lower this contents).map Prod.snd = some none
        ↔ CRLFCRLF <:+: contents) ∧
    ((Parse UnfoldHeaders ParseDateTime lower this contents).map Prod.snd
        = some (some errNoBody) ↔ ¬ CRLFCRLF <:+: contents) := by
  by_cases h : CRLFCRLF <:+: contents
  · obtain ⟨hdr, hh⟩ := headerSection_of_delimiter h
    rw [Parse_of_headerSection UnfoldHeaders ParseDateTime lower this contents hdr hh]
    simp [h]
  · rw [Parse_of_no_delimiter UnfoldHeaders ParseDateTime lower this contents h]
    simp [h]

theorem contentTypeLine_eq (T B : Str) :
    contentTypeLine T B = "Content-Type".toList ++
      ':' :: ((' ' :: T) ++ ';' :: (" boundary".toList ++ '=' :: ('"' :: B ++ ['"']))) := by
  simp [contentTypeLine]

/-- C2: a DATA block whose only Content-Type header line is
`Content-Type: T; boundary="B"`, with `T` free of `;`, `:`, CR, LF and `B` free of
`"`, `;`, `:`, CR, LF, and whose header section unfolding leaves unchanged, parses
without error to `ContentType` = `T` trimmed and `Boundary` = `B`. -/
theorem Parse_contentType_boundary (hl : GoLower lower) (this : MailHeader)
    (contents hdr : Str) (pre post : List Str) (T B : Str)
    (hT : ∀ c ∈ T, c ≠ ';' ∧ c ≠ ':' ∧ c ≠ '\r' ∧ c ≠ '\n')
    (hB : ∀ c ∈ B, c ≠ '"' ∧ c ≠ ';' ∧ c ≠ ':' ∧ c ≠ '\r' ∧ c ≠ '\n')
    (hsec : HeaderSection contents hdr)
    (hunf : UnfoldHeaders hdr = hdr)
    (hhdr : hdr = Join (pre ++ contentTypeLine T B :: post) CRLF)
    (hcrlf : ∀ l ∈ pre ++ post, ¬ CRLF <:+: l)
    (honly : ∀ l ∈ pre ++ post, ToLower lower (headerName l) ≠ "content-type".toList) :
    ∃ h : MailHeader,
      Parse UnfoldHeaders ParseDateTime lower this contents = some (h, none) ∧
      h.ContentType = TrimSpace T ∧ h.Boundary = B := by
  have hTc : ':' ∉ T := fun h => (hT _ h).2.1 rfl
  have hTs : ';' ∉ T := fun h => (hT _ h).1 rfl
  have hTr : '\r' ∉ T := fun h => (hT _ h).2.2.1 rfl
  have hBq : '"' ∉ B := fun h => (hB _ h).1 rfl
  have hBc : ':' ∉ B := fun h => (hB _ h).2.2.1 rfl
  have hBr : '\r' ∉ B := fun h => (hB _ h).2.2.2.1 rfl
  -- the shape of the Content-Type line
  have hname : headerName (contentTypeLine T B) = "Content-Type".toList := by
    rw [contentTypeLine_eq, headerName]
    exact before_append_cons (by decide) _
  have hval : headerValue (contentTypeLine T B)
      = (' ' :: T) ++ ';' :: (" boundary".toList ++ '=' :: ('"' :: B ++ ['"'])) := by
    rw [contentTypeLine_eq, headerValue]
    exact after_append_cons (by decide) _
  have hkey : ToLower lower (headerName (contentTypeLine T B)) = "content-type".toList := by
    rw [hname, ToLower_of_ascii hl (by decide)]
    decide
  have hw : without ':' (headerValue (contentTypeLine T B))
      = (' ' :: T) ++ ';' :: (" boundary".toList ++ '=' :: ('"' :: B ++ ['"'])) := by
    rw [hval]
    apply without_of_not_mem
    simp [hTc, hBc]
  have hsT : ';' ∉ ' ' :: T := by simp [hTs]
  have hct : ∀ st, (lineEffect ParseDateTime lower st (contentTypeLine T B)).ContentType
      = TrimSpace T := by
    intro st
    rw [lineEffect_ContentType_of_eq ParseDateTime lower st _ hkey, hw,
      before_append_cons hsT, TrimSpace_cons_of_space (by decide)]
  have hbd : ∀ st, (lineEffect ParseDateTime lower st (contentTypeLine T B)).Boundary = B := by
    intro st
    have hcont : Contains (ToLower lower (" boundary".toList ++ '=' :: ('"' :: B ++ ['"'])))
        "boundary".toList = true := by
      rw [Contains_iff_occurs, ToLower_append, ToLower_of_ascii hl (by decide)]
      exact ⟨[' '], ToLower lower ('=' :: ('"' :: B ++ ['"'])), rfl⟩
    rw [lineEffect_Boundary_of_eq ParseDateTime lower st _ hkey, hw, after_append_cons hsT,
      if_pos ⟨by simp, hcont⟩, after_append_cons (by decide)]
    have : without '"' ('"' :: B ++ ['"']) = without '"' B := by simp [without]
    rw [this, without_of_not_mem hBq]
  -- the lines of the header section
  have hline : ¬ CRLF <:+: contentTypeLine T B := by
    apply no_CRLF_of_not_mem
    rw [contentTypeLine_eq]
    simp [hTr, hBr]
  have hlines : HeaderLines hdr (pre ++ contentTypeLine T B :: post) := by
    refine ⟨by simp, ?_, hhdr⟩
    intro l hl'
    rw [List.mem_append, List.mem_cons] at hl'
    rcases hl' with h | h | h
    · exact hcrlf l (List.mem_append_left _ h)
    · rw [h]; exact hline
    · exact hcrlf l (List.mem_append_right _ h)
  refine ⟨_, Parse_of_headerSection UnfoldHeaders ParseDateTime lower this contents hdr hsec,
    ?_, ?_⟩
  · rw [hunf, Split_of_headerLines hlines]
    exact foldl_lineEffect_last ParseDateTime lower (fun st => st.ContentType) pre post _ _ hct
      (fun x hx st => lineEffect_ContentType_of_ne ParseDateTime lower st x
        (honly x (List.mem_append_right _ hx))) _
  · rw [hunf, Split_of_headerLines hlines]
    exact foldl_lineEffect_last ParseDateTime lower (fun st => st.Boundary) pre post _ _ hbd
      (fun x hx st => lineEffect_Boundary_of_ne ParseDateTime lower st x
        (honly x (List.mem_append_right _ hx))) _

/-- Witness of C2: the block of the specification, `T` = `multipart/mixed` and
`B` = `abc123`. -/
theorem Parse_contentType_boundary_witness :
    ∃ h : MailHeader,
      Parse (fun s => s) (fun s => s) Char.toLower zeroHeader
        "Content-Type: multipart/mixed; boundary=\"abc123\"\r\nSubject: Hi\r\n\r\nBody".toList
        = some (h, none) ∧
      h.ContentType = TrimSpace "multipart/mixed".toList ∧ h.Boundary = "abc123".toList :=
  Parse_contentType_boundary (fun s => s) (fun s => s) Char.toLower goLower_toLower zeroHeader
    "Content-Type: multipart/mixed; boundary=\"abc123\"\r\nSubject: Hi\r\n\r\nBody".toList
    "Content-Type: multipart/mixed; boundary=\"abc123\"\r\nSubject: Hi".toList
    [] ["Subject: Hi".toList] "multipart/mixed".toList "abc123".toList
    (by decide) (by decide) (headerSection_of_cut "Body".toList (by decide)) rfl
    (by decide) (by decide) (by decide)

/-- C3 (what the code does at the failing input): from `Subject: Re: Hello` the
parser stores `Re Hello`; the colon inside the value is lost, because the
pieces after the first colon are joined with the empty string. -/
theorem Parse_subject_drops_colons (hl : GoLower lower) (this : MailHeader)
    (hunf : UnfoldHeaders "Subject: Re: Hello".toList = "Subject: Re: Hello".toList) :
    ∃ h : MailHeader,
      Parse UnfoldHeaders ParseDateTime lower this "Subject: Re: Hello\r\n\r\nBody".toList
        = some (h, none) ∧
      h.Subject = "Re Hello".toList ∧ h.Subject ≠ "Re: Hello".toList := by
  have hsec : HeaderSection "Subject: Re: Hello\r\n\r\nBody".toList "Subject: Re: Hello".toList :=
    headerSection_of_cut "Body".toList (by decide)
  have hsplit : Split "Subject: Re: Hello".toList CRLF = ["Subject: Re: Hello".toList] := by
    decide
  have hname : headerName "Subject: Re: Hello".toList = "Subject".toList := by decide
  have hkey : ToLower lower (headerName "Subject: Re: Hello".toList) = "subject".toList := by
    rw [hname, ToLower_of_ascii hl (by decide)]
    decide
  have hsub : ((Split (UnfoldHeaders "Subject: Re: Hello".toList) CRLF).foldl
      (lineEffect ParseDateTime lower) (resetHeader this)).Subject = "Re Hello".toList := by
    rw [hunf, hsplit, List.foldl_cons, List.foldl_nil,
      lineEffect_Subject_of_eq ParseDateTime lower _ _ hkey]
    decide
  refine ⟨_, Parse_of_headerSection UnfoldHeaders ParseDateTime lower this _ _ hsec, hsub, ?_⟩
  rw [hsub]
  decide

/-- Witness of the evaluation for C3, with no unfolding to do and ASCII
lower-casing. -/
theorem Parse_subject_drops_colons_witness :
    ∃ h : MailHeader,
      Parse (fun s => s) (fun s => s) Char.toLower zeroHeader
        "Subject: Re: Hello\r\n\r\nBody".toList = some (h, none) ∧
      h.Subject = "Re Hello".toList ∧ h.Subject ≠ "Re: Hello".toList :=
  Parse_subject_drops_colons (fun s => s) (fun s => s) Char.toLower goLower_toLower
    zeroHeader rfl

/-- After the loop, `Subject` is not empty as soon as one line is a Subject
line. -/
theorem foldl_Subject_ne_nil (lines : List Str) : ∀ this : MailHeader,
    (∃ l ∈ lines, ToLower lower (headerName l) = "subject".toList) →
    (lines.foldl (lineEffect ParseDateTime lower) this).Subject ≠ [] := by
  induction lines with
  | nil => intro this h; simp at h
  | cons l ls ih =>
    intro this h
    rw [List.foldl_cons]
    by_cases hls : ∃ x ∈ ls, ToLower lower (headerName x) = "subject".toList
    · exact ih _ hls
    · have hl : ToLower lower (headerName l) = "subject".toList := by
        obtain ⟨x, hx, hxs⟩ := h
        rcases List.mem_cons.1 hx with e | e
        · rw [← e]; exact hxs
        · exact absurd ⟨x, e, hxs⟩ hls
      rw [foldl_lineEffect_frame ParseDateTime lower (fun st => st.Subject) ls
        (fun x hx st => lineEffect_Subject_of_ne ParseDateTime lower st x
          (fun e => hls ⟨x, hx, e⟩)),
        lineEffect_Subject_of_eq ParseDateTime lower _ _ hl]
      split_ifs with ht
      · decide
      · exact ht

/-- C4: in a successfully parsed DATA block, when the value of the last Subject
header line is empty after trimming, `Subject` is the literal `(No Subject)`;
and whenever some line of the header section is a Subject line, `Subject` is
not the empty string. -/
theorem Parse_subject_placeholder (this : MailHeader) (contents hdr : Str) (lines : List Str)
    (hsec : HeaderSection contents hdr) (hlines : HeaderLines (UnfoldHeaders hdr) lines) :
    ∃ h : MailHeader,
      Parse UnfoldHeaders ParseDateTime lower this contents = some (h, none) ∧
      (∀ (pre post : List Str) (n v : Str), lines = pre ++ (n ++ ':' :: v) :: post →
        ':' ∉ n → ToLower lower n = "subject".toList →
        (∀ l ∈ post, ToLower lower (headerName l) ≠ "subject".toList) →
        TrimSpace v = [] → h.Subject = "(No Subject)".toList) ∧
      ((∃ l ∈ lines, ToLower lower (headerName l) = "subject".toList) → h.Subject ≠ []) := by
  refine ⟨_, Parse_of_headerSection UnfoldHeaders ParseDateTime lower this contents hdr hsec,
    ?_, ?_⟩
  · intro pre post n v hl hn hkey hpost hv
    rw [Split_of_headerLines hlines, hl]
    apply foldl_lineEffect_last ParseDateTime lower (fun st => st.Subject) pre post
    · intro st
      have hname : headerName (n ++ ':' :: v) = n := before_append_cons hn v
      have hval : headerValue (n ++ ':' :: v) = v := after_append_cons hn v
      rw [lineEffect_Subject_of_eq ParseDateTime lower st _ (by rw [hname]; exact hkey), hval,
        without_colon_of_TrimSpace hv, if_pos hv]
    · exact fun x hx st => lineEffect_Subject_of_ne ParseDateTime lower st x (hpost x hx)
  · intro hex
    rw [Split_of_headerLines hlines]
    exact foldl_Subject_ne_nil ParseDateTime lower lines _ hex

/-- Witness of C4: the block `Subject: ` followed by the delimiter and `Body`. -/
theorem Parse_subject_placeholder_witness :
    ∃ h : MailHeader,
      Parse (fun s => s) (fun s => s) Char.toLower zeroHeader
        "Subject: \r\n\r\nBody".toList = some (h, none) ∧
      h.Subject = "(No Subject)".toList ∧ h.Subject ≠ [] := by
  obtain ⟨h, hp, h1, h2⟩ := Parse_subject_placeholder (fun s => s) (fun s => s) Char.toLower
    zeroHeader "Subject: \r\n\r\nBody".toList "Subject: ".toList ["Subject: ".toList]
    (headerSection_of_cut "Body".toList (by decide))
    ⟨by decide, by decide, by decide⟩
  exact ⟨h, hp, h1 [] [] "Subject".toList " ".toList rfl (by decide) (by decide)
    (by decide) (by decide), h2 ⟨_, List.mem_singleton_self _, by decide⟩⟩

/-- C5: after `Parse`, on any input and from any receiver, `XMailer` is the
fixed string `MailSlurper!`. -/
theorem Parse_XMailer (this : MailHeader) (contents : Str) :
    (Parse UnfoldHeaders ParseDateTime lower this contents).map (fun r => r.1.XMailer)
      = some "MailSlurper!".toList := by
  by_cases h : CRLFCRLF <:+: contents
  · obtain ⟨hdr, hh⟩ := headerSection_of_delimiter h
    rw [Parse_of_headerSection UnfoldHeaders ParseDateTime lower this contents hdr hh]
    simp only [Option.map_some', Option.some.injEq]
    rw [foldl_lineEffect_frame ParseDateTime lower (fun st => st.XMailer) _
      (fun l _ st => lineEffect_XMailer ParseDateTime lower st l)]
    rfl
  · rw [Parse_of_no_delimiter UnfoldHeaders ParseDateTime lower this contents h]
    rfl

/-- C7 (what the code does at the failing inputs): with a further parameter
after the boundary clause the code stores `abc; charset=utf-8`, and with the
boundary clause in the third segment it stores `utf-8; boundary=abc`; the
boundary derived from the second segment only is `abc` for the first value and
the empty string for the second. -/
theorem Parse_boundary_not_second_segment :
    (Parse (fun s => s) (fun s => s) Char.toLower zeroHeader
        "Content-Type: multipart/mixed; boundary=\"abc\"; charset=utf-8\r\n\r\nBody".toList).map
      (fun r => r.1.Boundary) = some "abc; charset=utf-8".toList ∧
    boundaryOfSecondSegment Char.toLower
      " multipart/mixed; boundary=\"abc\"; charset=utf-8".toList = "abc".toList ∧
    (Parse (fun s => s) (fun s => s) Char.toLower zeroHeader
        "Content-Type: multipart/mixed; charset=utf-8; boundary=\"abc\"\r\n\r\nBody".toList).map
      (fun r => r.1.Boundary) = some "utf-8; boundary=abc".toList ∧
    boundaryOfSecondSegment Char.toLower
      " multipart/mixed; charset=utf-8; boundary=\"abc\"".toList = [] := by
  decide

/-- The general form of the defect shown for C7: on the only Content-Type line
of a block, with a colon-free value `v`, the code works on the whole text of `v`
after its first `;`, not on the second segment, and stores that text from its
first `=` on, double quotes removed, further parameters included. -/
theorem Parse_boundary_right_side (this : MailHeader) (contents hdr : Str)
    (pre post : List Str) (n v : Str) (hsec : HeaderSection contents hdr)
    (hlines : HeaderLines (UnfoldHeaders hdr) (pre ++ (n ++ ':' :: v) :: post))
    (hn : ':' ∉ n) (hv : ':' ∉ v) (hkey : ToLower lower n = "content-type".toList)
    (honly : ∀ l ∈ pre ++ post, ToLower lower (headerName l) ≠ "content-type".toList) :
    ∃ h : MailHeader,
      Parse UnfoldHeaders ParseDateTime lower this contents = some (h, none) ∧
      h.Boundary = boundaryOfRightSide lower v := by
  refine ⟨_, Parse_of_headerSection UnfoldHeaders ParseDateTime lower this contents hdr hsec, ?_⟩
  have hname : headerName (n ++ ':' :: v) = n := before_append_cons hn v
  have hval : headerValue (n ++ ':' :: v) = v := after_append_cons hn v
  rw [Split_of_headerLines hlines, List.foldl_append, List.foldl_cons,
    foldl_lineEffect_frame ParseDateTime lower (fun st => st.Boundary) post
      (fun x hx st => lineEffect_Boundary_of_ne ParseDateTime lower st x
        (honly x (List.mem_append_right _ hx))),
    lineEffect_Boundary_of_eq ParseDateTime lower _ _ (by rw [hname]; exact hkey),
    foldl_lineEffect_frame ParseDateTime lower (fun st => st.Boundary) pre
      (fun x hx st => lineEffect_Boundary_of_ne ParseDateTime lower st x
        (honly x (List.mem_append_left _ hx))),
    hval, without_of_not_mem hv]
  simp only [boundaryOfRightSide, Contains_iff_occurs]
  rfl

/-- C8: header dispatch is case-insensitive. For a DATA block with a header
part that unfolding leaves unchanged, replacing the name `n` of a header line
by any name `n'` with the same lower-casing gives the same result of `Parse`,
in every field. The values are stored as written, with no change of case: when the
line is the last of its name and its value `v` has no colon, `ContentType` is
the trimmed text of `v` before its first `;`, `MIMEVersion` is `v` trimmed, and
`Subject` is `v` trimmed (when that is not empty). -/
theorem Parse_name_case_insensitive (this : MailHeader) (contents contents' hdr hdr' : Str)
    (pre post : List Str) (n n' rest : Str)
    (hsec : HeaderSection contents hdr) (hsec' : HeaderSection contents' hdr')
    (hunf : UnfoldHeaders hdr = hdr) (hunf' : UnfoldHeaders hdr' = hdr')
    (hlines : HeaderLines hdr (pre ++ (n ++ rest) :: post))
    (hlines' : HeaderLines hdr' (pre ++ (n' ++ rest) :: post))
    (hn : ':' ∉ n) (hn' : ':' ∉ n') (hrest : rest = [] ∨ ∃ v, rest = ':' :: v)
    (hlow : ToLower lower n' = ToLower lower n) :
    ∃ h : MailHeader,
      Parse UnfoldHeaders ParseDateTime lower this contents = some (h, none) ∧
      Parse UnfoldHeaders ParseDateTime lower this contents' = some (h, none) ∧
      (∀ v : Str, rest = ':' :: v → ':' ∉ v →
        (∀ l ∈ post, ToLower lower (headerName l) ≠ ToLower lower n) →
        (ToLower lower n = "content-type".toList → h.ContentType = TrimSpace (before ';' v)) ∧
        (ToLower lower n = "mime-version".toList → h.MIMEVersion = TrimSpace v) ∧
        (ToLower lower n = "subject".toList → TrimSpace v ≠ [] → h.Subject = TrimSpace v)) := by
  have hname : headerName (n ++ rest) = n := headerName_append hn hrest
  have hname' : headerName (n' ++ rest) = n' := headerName_append hn' hrest
  have hval : headerValue (n ++ rest) = rest.drop 1 := headerValue_append hn hrest
  have hval' : headerValue (n' ++ rest) = rest.drop 1 := headerValue_append hn' hrest
  have hline : ∀ st, lineEffect ParseDateTime lower st (n' ++ rest)
      = lineEffect ParseDateTime lower st (n ++ rest) :=
    fun st => lineEffect_congr ParseDateTime lower st (by rw [hname, hname', hlow])
      (by rw [hval, hval'])
  refine ⟨_, Parse_of_headerSection UnfoldHeaders ParseDateTime lower this contents hdr hsec,
    ?_, ?_⟩
  · rw [Parse_of_headerSection UnfoldHeaders ParseDateTime lower this contents' hdr' hsec',
      hunf, hunf', Split_of_headerLines hlines, Split_of_headerLines hlines',
      List.foldl_append, List.foldl_append, List.foldl_cons, List.foldl_cons, hline]
  · intro v hv hvc hpost
    have hval2 : headerValue (n ++ rest) = v := by rw [hval, hv]; rfl
    rw [hunf, Split_of_headerLines hlines]
    refine ⟨?_, ?_, ?_⟩
    · intro hk
      apply foldl_lineEffect_last ParseDateTime lower (fun st => st.ContentType) pre post
      · intro st
        rw [lineEffect_ContentType_of_eq ParseDateTime lower st _ (by rw [hname]; exact hk),
          hval2, without_of_not_mem hvc]
      · exact fun x hx st => lineEffect_ContentType_of_ne ParseDateTime lower st x
          (by rw [← hk]; exact hpost x hx)
    · intro hk
      apply foldl_lineEffect_last ParseDateTime lower (fun st => st.MIMEVersion) pre post
      · intro st
        rw [lineEffect_MIMEVersion_of_eq ParseDateTime lower st _ (by rw [hname]; exact hk),
          hval2, without_of_not_mem hvc]
      · exact fun x hx st => lineEffect_MIMEVersion_of_ne ParseDateTime lower st x
          (by rw [← hk]; exact hpost x hx)
    · intro hk hne
      apply foldl_lineEffect_last ParseDateTime lower (fun st => st.Subject) pre post
      · intro st
        rw [lineEffect_Subject_of_eq ParseDateTime lower st _ (by rw [hname]; exact hk),
          hval2, without_of_not_mem hvc, if_neg hne]
      · exact fun x hx st => lineEffect_Subject_of_ne ParseDateTime lower st x
          (by rw [← hk]; exact hpost x hx)

/-- Witness of C8: `content-type` replaced by `CONTENT-TYPE`; the stored value
`Text/Plain` keeps its capitals. -/
theorem Parse_name_case_insensitive_witness :
    ∃ h : MailHeader,
      Parse (fun s => s) (fun s => s) Char.toLower zeroHeader
        "content-type: Text/Plain\r\nSubject: Hi\r\n\r\nBody".toList = some (h, none) ∧
      Parse (fun s => s) (fun s => s) Char.toLower zeroHeader
        "CONTENT-TYPE: Text/Plain\r\nSubject: Hi\r\n\r\nBody".toList = some (h, none) ∧
      h.ContentType = "Text/Plain".toList := by
  obtain ⟨h, hp, hp', hv⟩ := Parse_name_case_insensitive (fun s => s) (fun s => s)
    Char.toLower zeroHeader
    "content-type: Text/Plain\r\nSubject: Hi\r\n\r\nBody".toList
    "CONTENT-TYPE: Text/Plain\r\nSubject: Hi\r\n\r\nBody".toList
    "content-type: Text/Plain\r\nSubject: Hi".toList
    "CONTENT-TYPE: Text/Plain\r\nSubject: Hi".toList
    [] ["Subject: Hi".toList] "content-type".toList "CONTENT-TYPE".toList
    ": Text/Plain".toList
    (headerSection_of_cut "Body".toList (by decide))
    (headerSection_of_cut "Body".toList (by decide)) rfl rfl
    ⟨by decide, by decide, by decide⟩ ⟨by decide, by decide, by decide⟩
    (by decide) (by decide) (Or.inr ⟨" Text/Plain".toList, rfl⟩) (by decide)
  exact ⟨h, hp, hp', ((hv " Text/Plain".toList rfl (by decide) (by decide)).1 (by decide)).trans
    (by decide)⟩

/-- C9 (counterexample): a line with no colon at all whose text is a recognised
name does change a field: the line `Subject` sets `Subject`, empty before the
call, to the placeholder. -/
theorem Parse_colonless_line_changes_subject :
    Parse (fun s => s) (fun s => s) Char.toLower zeroHeader "Subject\r\n\r\nBody".toList
      = some (NewMailHeader [] [] [] "(No Subject)".toList [] "MailSlurper!".toList, none) ∧
    ':' ∉ "Subject".toList ∧ zeroHeader.Subject = [] := by
  decide

/-- C9 (amended): in a successfully parsed DATA block, each of `ContentType`,
`MIMEVersion`, `Subject` and `Date` whose name is the lower-cased name of no
line of the unfolded header section keeps the value it had before the call;
lines whose lower-cased name (the text before the first colon, the whole line
when there is no colon) is none of the four recognised names change no field
and cause no error: with only such lines the receiver is left as it was but for
the reset of `XMailer` and `Boundary`, and two blocks with the same recognised
lines give the same result. -/
theorem Parse_frame (this : MailHeader) (contents hdr : Str) (lines : List Str)
    (hsec : HeaderSection contents hdr) (hlines : HeaderLines (UnfoldHeaders hdr) lines) :
    ∃ h : MailHeader,
      Parse UnfoldHeaders ParseDateTime lower this contents = some (h, none) ∧
      ((∀ l ∈ lines, ToLower lower (headerName l) ≠ "content-type".toList) →
        h.ContentType = this.ContentType) ∧
      ((∀ l ∈ lines, ToLower lower (headerName l) ≠ "mime-version".toList) →
        h.MIMEVersion = this.MIMEVersion) ∧
      ((∀ l ∈ lines, ToLower lower (headerName l) ≠ "subject".toList) →
        h.Subject = this.Subject) ∧
      ((∀ l ∈ lines, ToLower lower (headerName l) ≠ "date".toList) → h.Date = this.Date) ∧
      ((∀ l ∈ lines, ¬ Recognised lower l) →
        h = { this with XMailer := "MailSlurper!".toList, Boundary := [] }) ∧
      (∀ (contents' hdr' : Str) (lines' : List Str), HeaderSection contents' hdr' →
        HeaderLines (UnfoldHeaders hdr') lines' →
        lines'.filter (fun l => decide (Recognised lower l))
          = lines.filter (fun l => decide (Recognised lower l)) →
        Parse UnfoldHeaders ParseDateTime lower this contents' = some (h, none)) := by
  refine ⟨_, Parse_of_headerSection UnfoldHeaders ParseDateTime lower this contents hdr hsec,
    ?_, ?_, ?_, ?_, ?_, ?_⟩
  · intro hno
    rw [Split_of_headerLines hlines]
    exact foldl_lineEffect_frame ParseDateTime lower (fun st => st.ContentType) lines
      (fun l hl st => lineEffect_ContentType_of_ne ParseDateTime lower st l (hno l hl)) _
  · intro hno
    rw [Split_of_headerLines hlines]
    exact foldl_lineEffect_frame ParseDateTime lower (fun st => st.MIMEVersion) lines
      (fun l hl st => lineEffect_MIMEVersion_of_ne ParseDateTime lower st l (hno l hl)) _
  · intro hno
    rw [Split_of_headerLines hlines]
    exact foldl_lineEffect_frame ParseDateTime lower (fun st => st.Subject) lines
      (fun l hl st => lineEffect_Subject_of_ne ParseDateTime lower st l (hno l hl)) _
  · intro hno
    rw [Split_of_headerLines hlines]
    exact foldl_lineEffect_frame ParseDateTime lower (fun st => st.Date) lines
      (fun l hl st => lineEffect_Date_of_ne ParseDateTime lower st l (hno l hl)) _
  · intro hno
    rw [Split_of_headerLines hlines]
    exact foldl_lineEffect_frame ParseDateTime lower (fun st => st) lines
      (fun l hl st => lineEffect_of_not_recognised ParseDateTime lower st l (hno l hl)) _
  · intro contents' hdr' lines' hsec' hlines' hfilter
    rw [Parse_of_headerSection UnfoldHeaders ParseDateTime lower this contents' hdr' hsec',
      Split_of_headerLines hlines', Split_of_headerLines hlines,
      ← foldl_lineEffect_filter ParseDateTime lower lines',
      ← foldl_lineEffect_filter ParseDateTime lower lines, hfilter]

/-- Witness of C9 (amended): a block with a Subject line, an unrecognised line
and a line without colon; `ContentType`, `MIMEVersion` and `Date` keep their
values, and the block with the Subject line alone parses to the same header. -/
theorem Parse_frame_witness :
    ∃ h : MailHeader,
      Parse (fun s => s) (fun s => s) Char.toLower
        (NewMailHeader "text/plain".toList "b".toList "1.0".toList "Old".toList "d".toList [])
        "X-Mailer: Evil\r\nSubject: Hi\r\nno colon here\r\n\r\nBody".toList = some (h, none) ∧
      h.ContentType = "text/plain".toList ∧ h.MIMEVersion = "1.0".toList ∧
      h.Date = "d".toList ∧
      Parse (fun s => s) (fun s => s) Char.toLower
        (NewMailHeader "text/plain".toList "b".toList "1.0".toList "Old".toList "d".toList [])
        "Subject: Hi\r\n\r\nOther".toList = some (h, none) := by
  obtain ⟨h, hp, h1, h2, _, h4, _, h6⟩ := Parse_frame (fun s => s) (fun s => s) Char.toLower
    (NewMailHeader "text/plain".toList "b".toList "1.0".toList "Old".toList "d".toList [])
    "X-Mailer: Evil\r\nSubject: Hi\r\nno colon here\r\n\r\nBody".toList
    "X-Mailer: Evil\r\nSubject: Hi\r\nno colon here".toList
    ["X-Mailer: Evil".toList, "Subject: Hi".toList, "no colon here".toList]
    (headerSection_of_cut "Body".toList (by decide)) ⟨by decide, by decide, by decide⟩
  exact ⟨h, hp, h1 (by decide), h2 (by decide), h4 (by decide),
    h6 "Subject: Hi\r\n\r\nOther".toList "Subject: Hi".toList ["Subject: Hi".toList]
      (headerSection_of_cut "Other".toList (by decide)) ⟨by decide, by decide, by decide⟩
      (by decide)⟩

/-- C10: in a successfully parsed DATA block whose header section unfolding
leaves unchanged, when the last Date header line is a name, a colon and a value
`v`, `Date` is the date normaliser applied to exactly `v`, later colons
included. -/
theorem Parse_date_whole_value (this : MailHeader) (contents hdr : Str) (pre post : List Str)
    (n v : Str) (hsec : HeaderSection contents hdr) (hunf : UnfoldHeaders hdr = hdr)
    (hlines : HeaderLines hdr (pre ++ (n ++ ':' :: v) :: post))
    (hn : ':' ∉ n) (hkey : ToLower lower n = "date".toList)
    (hpost : ∀ l ∈ post, ToLower lower (headerName l) ≠ "date".toList) :
    ∃ h : MailHeader,
      Parse UnfoldHeaders ParseDateTime lower this contents = some (h, none) ∧
      h.Date = ParseDateTime v := by
  refine ⟨_, Parse_of_headerSection UnfoldHeaders ParseDateTime lower this contents hdr hsec, ?_⟩
  rw [hunf, Split_of_headerLines hlines]
  apply foldl_lineEffect_last ParseDateTime lower (fun st => st.Date) pre post
  · intro st
    have hname : headerName (n ++ ':' :: v) = n := before_append_cons hn v
    have hval : headerValue (n ++ ':' :: v) = v := after_append_cons hn v
    rw [lineEffect_Date_of_eq ParseDateTime lower st _ (by rw [hname]; exact hkey), hval]
  · exact fun x hx st => lineEffect_Date_of_ne ParseDateTime lower st x (hpost x hx)

/-- Witness of C10: a Date line whose value holds a time of day. -/
theorem Parse_date_whole_value_witness :
    ∃ h : MailHeader,
      Parse (fun s => s) (fun s => s) Char.toLower zeroHeader
        "Date: Mon, 02 Jan 2006 15:04:05 -0700\r\nSubject: Hi\r\n\r\nBody".toList
        = some (h, none) ∧
      h.Date = " Mon, 02 Jan 2006 15:04:05 -0700".toList :=
  Parse_date_whole_value (fun s => s) (fun s => s) Char.toLower zeroHeader
    "Date: Mon, 02 Jan 2006 15:04:05 -0700\r\nSubject: Hi\r\n\r\nBody".toList
    "Date: Mon, 02 Jan 2006 15:04:05 -0700\r\nSubject: Hi".toList
    [] ["Subject: Hi".toList] "Date".toList " Mon, 02 Jan 2006 15:04:05 -0700".toList
    (headerSection_of_cut "Body".toList (by decide)) rfl
    ⟨by decide, by decide, by decide⟩ (by decide) (by decide) (by decide)

/-- C17: `Parse` is total. Every index `[0]` and every slice `[1:]` taken of a
result of `Split` is in bounds, one pass of the loop never panics, and `Parse`
always returns, with `nil` or with the malformed-message error. -/
theorem Parse_total (this : MailHeader) (contents : Str) :
    (∀ s sep : Str, (index (Split s sep) 0).isSome = true ∧
      (sliceFrom (Split s sep) 1).isSome = true) ∧
    (∀ (st : MailHeader) (line : Str), (parseLine ParseDateTime lower st line).isSome = true) ∧
    (∃ h : MailHeader,
      Parse UnfoldHeaders ParseDateTime lower this contents = some (h, none) ∨
      Parse UnfoldHeaders ParseDateTime lower this contents = some (h, some errNoBody)) := by
  refine ⟨?_, ?_, ?_⟩
  · intro s sep
    have hne := Split_ne_nil s sep
    cases hs : Split s sep with
    | nil => exact absurd hs hne
    | cons a r => simp [index, sliceFrom]
  · intro st line
    rw [parseLine_eq]
    rfl
  · by_cases h : CRLFCRLF <:+: contents
    · obtain ⟨hdr, hh⟩ := headerSection_of_delimiter h
      exact ⟨_, Or.inl (Parse_of_headerSection UnfoldHeaders ParseDateTime lower this contents
        hdr hh)⟩
    · exact ⟨_, Or.inr (Parse_of_no_delimiter UnfoldHeaders ParseDateTime lower this contents h)⟩

/-- C18: when `Parse` fails, that is when CR LF CR LF does not occur in the
input, `ContentType`, `MIMEVersion`, `Subject` and `Date` are as before the
call, `Boundary` is the empty string and `XMailer` is `MailSlurper!`. -/
theorem Parse_failure_state (this : MailHeader) (contents : Str)
    (h : ¬ CRLFCRLF <:+: contents) :
    Parse UnfoldHeaders ParseDateTime lower this contents
      = some ({ ContentType := this.ContentType, Boundary := [],
                MIMEVersion := this.MIMEVersion, Subject := this.Subject,
                Date := this.Date, XMailer := "MailSlurper!".toList }, some errNoBody) := by
  rw [Parse_of_no_delimiter UnfoldHeaders ParseDateTime lower this contents h]
  rfl

/-- Witness of C18: a receiver with every field set and an input without the
delimiter; `Boundary` and `XMailer` are overwritten, the other fields kept. -/
theorem Parse_failure_state_witness :
    Parse (fun s => s) (fun s => s) Char.toLower
        (NewMailHeader "text/plain".toList "b".toList "1.0".toList "Old".toList "d".toList
          "x".toList)
        "NoSeparatorHere".toList
      = some (NewMailHeader "text/plain".toList [] "1.0".toList "Old".toList "d".toList
          "MailSlurper!".toList, some errNoBody) :=
  Parse_failure_state (fun s => s) (fun s => s) Char.toLower
    (NewMailHeader "text/plain".toList "b".toList "1.0".toList "Old".toList "d".toList
      "x".toList)
    "NoSeparatorHere".toList (by decide)

/-- C19: the result of `Parse` depends on the DATA block only through its header
section. Two blocks that agree up to and including their first CR LF CR LF give,
from the same receiver, the same result, whatever follows the delimiter. -/
theorem Parse_body_independent (this : MailHeader) (contents contents' hdr : Str)
    (h : HeaderSection contents hdr) (h' : HeaderSection contents' hdr) :
    Parse UnfoldHeaders ParseDateTime lower this contents
      = Parse UnfoldHeaders ParseDateTime lower this contents' := by
  rw [Parse_of_headerSection UnfoldHeaders ParseDateTime lower this contents hdr h,
    Parse_of_headerSection UnfoldHeaders ParseDateTime lower this contents' hdr h']

/-- Witness of C19: the second body holds a header-like line and a further
delimiter. -/
theorem Parse_body_independent_witness :
    Parse (fun s => s) (fun s => s) Char.toLower zeroHeader "Subject: Hi\r\n\r\nBody".toList
      = Parse (fun s => s) (fun s => s) Char.toLower zeroHeader
          "Subject: Hi\r\n\r\nSubject: Other\r\n\r\nMore".toList :=
  Parse_body_independent (fun s => s) (fun s => s) Char.toLower zeroHeader
    "Subject: Hi\r\n\r\nBody".toList "Subject: Hi\r\n\r\nSubject: Other\r\n\r\nMore".toList
    "Subject: Hi".toList
    (headerSection_of_cut "Body".toList (by decide))
    (headerSection_of_cut "Subject: Other\r\n\r\nMore".toList (by decide))

end Claims

/-! ## Theorems about the pool -/

section PoolClaims

variable (chanLimit : Nat) (emailValidationService xssService : Service)

/-- C11 (counterexample): for `maxWorkers` = 2^62, which is an `int` ≥ 1,
`make(ServerPool, maxWorkers)` panics with `makechan: size out of range`, so
`NewServerPool` returns no pool. -/
theorem NewServerPool_panics_on_large_size :
    NewServerPool chanLimit64 1 2 [] 4611686018427387904 = .error Stuck.panic ∧
    (1 : Int) ≤ 4611686018427387904 ∧ (4611686018427387904 : Int) = 2 ^ 62 :=
  ⟨rfl, by decide, by norm_num⟩

/-- C11 (amended): for every `maxWorkers` ≥ 1 that is at most the largest
channel size the runtime accepts, `NewServerPool(maxWorkers)` returns, without
blocking on a send, a pool of capacity `maxWorkers` whose queue holds exactly
the `maxWorkers` workers it has allocated, each once, in the order of their
creation, with the ids 1, 2, ..., `maxWorkers`; the workers allocated before
the call are untouched. -/
theorem NewServerPool_spec (heap : List SMTPWorker) (maxWorkers : Int) (h : 1 ≤ maxWorkers)
    (hmax : maxWorkers ≤ (chanLimit : Int)) :
    ∃ s : PoolState,
      NewServerPool chanLimit emailValidationService xssService heap maxWorkers = .ok s ∧
      s.pool.capacity = maxWorkers.toNat ∧
      s.pool.queue = List.range' heap.length maxWorkers.toNat ∧
      s.pool.queue.length = maxWorkers.toNat ∧ s.pool.queue.Nodup ∧
      s.heap.length = heap.length + maxWorkers.toNat ∧
      (∀ p, p < heap.length → s.heap[p]? = heap[p]?) ∧
      s.pool.queue.map (workerID s.heap)
        = (List.range maxWorkers.toNat).map (fun i : Nat => some ((i : Int) + 1)) := by
  have h0 : 0 ≤ maxWorkers := by omega
  have hr : Reachable chanLimit emailValidationService xssService heap maxWorkers _ [] :=
    Reachable.init (NewServerPool_eq chanLimit emailValidationService xssService heap h0 hmax)
  have hinv := poolInv_of_reachable chanLimit emailValidationService xssService hr
  refine ⟨_, NewServerPool_eq chanLimit emailValidationService xssService heap h0 hmax, rfl, rfl,
    by simp, List.nodup_range' _ _, by simp, fun p hp => List.getElem?_append_left hp, ?_⟩
  apply List.ext_getElem
  · simp
  · intro i h1 h2
    simp only [List.length_map, List.length_range'] at h1
    simp only [List.getElem_map, List.getElem_range', List.getElem_range, Nat.mul_one]
    have := hinv.2.2 i h1
    simpa using this

/-- Witness of C11 (amended): a pool of three workers made from an empty heap. -/
theorem NewServerPool_spec_witness :
    ∃ s : PoolState,
      NewServerPool chanLimit64 1 2 [] 3 = .ok s ∧ s.pool.capacity = 3 ∧
      s.pool.queue = [0, 1, 2] ∧
      s.pool.queue.map (workerID s.heap) = [some 1, some 2, some 3] := by
  obtain ⟨s, h1, h2, h3, _, _, _, _, h8⟩ :=
    NewServerPool_spec chanLimit64 1 2 [] 3 (by decide) (by decide)
  exact ⟨s, h1, h2, h3, h8⟩

/-- C12: conservation. In every state reached from `NewServerPool(maxWorkers)` by
calls of `NextWorker` and by calls of `JoinQueue` on a worker the caller has
checked out, the queued and the checked-out workers are `maxWorkers` in number,
they are together the workers of the pool, and none occurs twice among them:
each worker is either queued once or checked out once. -/
theorem pool_conservation (heap : List SMTPWorker) (maxWorkers : Int) (s : PoolState)
    (out : List WorkerPtr)
    (hr : Reachable chanLimit emailValidationService xssService heap maxWorkers s out) :
    s.pool.queue.length + out.length = maxWorkers.toNat ∧
    (s.pool.queue ++ out).Perm (List.range' heap.length maxWorkers.toNat) ∧
    (s.pool.queue ++ out).Nodup := by
  have hinv := poolInv_of_reachable chanLimit emailValidationService xssService hr
  exact ⟨poolInv_length hinv, hinv.2.1, (hinv.2.1.nodup_iff).2 (List.nodup_range' _ _)⟩

/-- Witness of C12: a pool of two workers after two acquisitions and the
release of the first worker. -/
theorem pool_conservation_witness :
    ∃ (s : PoolState) (out : List WorkerPtr),
      Reachable chanLimit64 1 2 [] 2 s out ∧ s.pool.queue = [0] ∧ out = [1] ∧
      s.pool.queue.length + out.length = 2 ∧ (s.pool.queue ++ out).Nodup := by
  have hr : Reachable chanLimit64 1 2 [] 2 _ _ :=
    Reachable.release 0
      (Reachable.acquire 8 9 (Reachable.acquire 6 7 (Reachable.init rfl) rfl) rfl)
      (by decide) rfl
  obtain ⟨h1, _, h3⟩ := pool_conservation chanLimit64 1 2 [] 2 _ _ hr
  exact ⟨_, _, hr, rfl, rfl, h1, h3⟩

/-- C13: with no worker queued, `NextWorker` returns the error
`NoWorkerAvailable` and takes no worker: the channel is as before, and the
pointer returned is that of a worker allocated by this call, with every field
at its zero value; in a reachable state it is neither a worker of the pool nor
checked out nor queued. -/
theorem NextWorker_timeout (s : PoolState) (connection : Conn) (receiver : MailItemChan)
    (hq : s.pool.queue = []) :
    ∃ (s' : PoolState) (w : WorkerPtr),
      NextWorker s connection receiver = .ok (s', w, some PoolError.NoWorkerAvailable) ∧
      s'.pool = s.pool ∧ s'.heap = s.heap ++ [emptyWorker] ∧ w = s.heap.length ∧
      s'.heap[w]? = some emptyWorker ∧
      ∀ (heap : List SMTPWorker) (maxWorkers : Int) (out : List WorkerPtr),
        Reachable chanLimit emailValidationService xssService heap maxWorkers s out →
        w ∉ List.range' heap.length maxWorkers.toNat ∧ w ∉ out ∧ w ∉ s'.pool.queue := by
  refine ⟨_, _, NextWorker_nil hq connection receiver, rfl, rfl, rfl, by simp, ?_⟩
  intro heap maxWorkers out hr
  have hinv := poolInv_of_reachable chanLimit emailValidationService xssService hr
  have hfresh : ∀ v : Nat, v ∈ s.pool.queue ++ out → v ≠ s.heap.length := fun v hv e => by
    have := (poolInv_lt hinv hv).1
    omega
  refine ⟨fun hw => hfresh _ ((hinv.2.1.mem_iff).2 hw) rfl,
    fun hw => hfresh _ (List.mem_append_right _ hw) rfl,
    fun hw => hfresh _ (List.mem_append_left _ hw) rfl⟩

/-- Witness of C13: a pool of one worker, checked out; the next call times out
and returns a new empty worker at address 1. -/
theorem NextWorker_timeout_witness :
    ∃ (s s' : PoolState),
      Reachable chanLimit64 1 2 [] 1 s [0] ∧
      NextWorker s 8 9 = .ok (s', 1, some PoolError.NoWorkerAvailable) ∧
      s'.pool = s.pool ∧ s'.heap[1]? = some emptyWorker ∧ (1 : WorkerPtr) ∉ [0] := by
  have hex : ∃ s : PoolState,
      Reachable chanLimit64 1 2 [] 1 s [0] ∧ s.pool.queue = [] ∧ s.heap.length = 1 :=
    ⟨_, Reachable.acquire 6 7 (Reachable.init rfl) rfl, rfl, rfl⟩
  obtain ⟨s, hr, hq, hlen⟩ := hex
  obtain ⟨s', w, h1, h2, _, h4, h5, h6⟩ := NextWorker_timeout chanLimit64 1 2 s 8 9 hq
  have hw : w = 1 := h4.trans hlen
  subst hw
  exact ⟨s, s', hr, h1, h2, h5, (h6 [] 1 [0] hr).2.1⟩

/-- C15: release does not block. In every reachable state, for a worker the
caller has checked out, the queue holds fewer than `maxWorkers` workers, so the
send of `JoinQueue` finds a free slot and `JoinQueue` returns, with the worker
queued last. -/
theorem JoinQueue_never_blocks (heap : List SMTPWorker) (maxWorkers : Int) (s : PoolState)
    (out : List WorkerPtr) (w : WorkerPtr)
    (hr : Reachable chanLimit emailValidationService xssService heap maxWorkers s out) (hw : w ∈ out) :
    s.pool.queue.length < maxWorkers.toNat ∧ s.pool.capacity = maxWorkers.toNat ∧
    JoinQueue s w = .ok { s with pool := { s.pool with queue := s.pool.queue ++ [w] } } := by
  have hinv := poolInv_of_reachable chanLimit emailValidationService xssService hr
  have hlen := poolInv_length hinv
  have hpos : 0 < out.length := List.length_pos_of_mem hw
  have hlt : s.pool.queue.length < maxWorkers.toNat := by omega
  exact ⟨hlt, hinv.1, JoinQueue_of_lt w (by rw [hinv.1]; exact hlt)⟩

/-- Witness of C15: a pool of one worker, checked out and given back. -/
theorem JoinQueue_never_blocks_witness :
    ∃ s : PoolState, Reachable chanLimit64 1 2 [] 1 s [0] ∧ s.pool.queue = [] ∧
      JoinQueue s 0 = .ok { s with pool := { s.pool with queue := [0] } } := by
  have hr : Reachable chanLimit64 1 2 [] 1 _ [0] := Reachable.acquire 6 7 (Reachable.init rfl) rfl
  exact ⟨_, hr, rfl, (JoinQueue_never_blocks chanLimit64 1 2 [] 1 _ [0] 0 hr (by decide)).2.2⟩

/-- C16: first in, first out. In a reachable state with a worker queued,
`NextWorker` returns without error the head of the queue and leaves the rest of
the queue as it was; the first `maxWorkers` calls after `NewServerPool` return
the workers with ids 1, 2, ..., `maxWorkers` in that order; and after a release
the workers queued before the released one are handed out before it. -/
theorem NextWorker_fifo (heap : List SMTPWorker) (maxWorkers : Int) (s : PoolState)
    (out : List WorkerPtr)
    (hr : Reachable chanLimit emailValidationService xssService heap maxWorkers s out) :
    (∀ (w : WorkerPtr) (rest : List WorkerPtr) (connection : Conn) (receiver : MailItemChan),
      s.pool.queue = w :: rest →
      ∃ heap', NextWorker s connection receiver
        = .ok ({ heap := heap', pool := { s.pool with queue := rest } }, w, none)) ∧
    (∀ (s0 : PoolState) (calls : List (Conn × MailItemChan)),
      NewServerPool chanLimit emailValidationService xssService heap maxWorkers = .ok s0 →
      calls.length = maxWorkers.toNat →
      ∃ (s1 : PoolState) (results : List (WorkerPtr × Option PoolError)),
        NextWorkers s0 calls = .ok (s1, results) ∧
        results.map (fun r => (workerID s1.heap r.1, r.2))
          = (List.range maxWorkers.toNat).map (fun i : Nat => (some ((i : Int) + 1), none))) ∧
    (∀ (w : WorkerPtr) (s' : PoolState) (calls : List (Conn × MailItemChan)),
      w ∈ out → JoinQueue s w = .ok s' → calls.length = s.pool.queue.length + 1 →
      ∃ s'' : PoolState,
        NextWorkers s' calls = .ok (s'', (s.pool.queue ++ [w]).map (fun p => (p, none)))) := by
  have hinv := poolInv_of_reachable chanLimit emailValidationService xssService hr
  refine ⟨?_, ?_, ?_⟩
  · intro w rest connection receiver hq
    have hw : w < s.heap.length :=
      (poolInv_lt hinv (List.mem_append_left _ (by rw [hq]; exact List.mem_cons_self _ _))).1
    obtain ⟨heap', hnext, _⟩ := NextWorker_cons hq hw connection receiver
    exact ⟨heap', hnext⟩
  · intro s0 calls h0 hlen
    have hr0 : Reachable chanLimit emailValidationService xssService heap maxWorkers s0 [] :=
      Reachable.init h0
    have hinv0 := poolInv_of_reachable chanLimit emailValidationService xssService hr0
    have hn := NewServerPool_range chanLimit emailValidationService xssService h0
    have hq0 : s0.pool.queue = List.range' heap.length maxWorkers.toNat := by
      rw [NewServerPool_eq chanLimit emailValidationService xssService heap hn.1 hn.2] at h0
      injection h0 with h0
      rw [← h0]
    obtain ⟨s1, hrun, _, hid⟩ := NextWorkers_take calls s0
      (fun w hw => (poolInv_lt hinv0 (List.mem_append_left _ hw)).1)
      (by rw [hq0, hlen]; simp)
    refine ⟨s1, _, hrun, ?_⟩
    rw [hq0, hlen, List.take_of_length_le (by simp)]
    apply List.ext_getElem
    · simp
    · intro i h1 h2
      simp only [List.length_map, List.length_range'] at h1
      simp only [List.getElem_map, List.getElem_range', List.getElem_range, Nat.mul_one,
        Nat.one_mul, Prod.mk.injEq, and_true]
      rw [hid]
      exact hinv0.2.2 i h1
  · intro w s' calls hw hjoin hlen
    obtain ⟨_, hs'⟩ := JoinQueue_ok hjoin
    have hvalid : ∀ v ∈ s'.pool.queue, v < s'.heap.length := by
      intro v hv
      rw [hs'] at hv ⊢
      simp only [List.mem_append, List.mem_singleton] at hv
      rcases hv with hv | hv
      · exact (poolInv_lt hinv (List.mem_append_left _ hv)).1
      · rw [hv]; exact (poolInv_lt hinv (List.mem_append_right _ hw)).1
    have hq' : s'.pool.queue = s.pool.queue ++ [w] := by rw [hs']
    obtain ⟨s'', hrun, _⟩ := NextWorkers_take calls s' hvalid (by rw [hq', hlen]; simp)
    refine ⟨s'', ?_⟩
    rw [hrun, hq', hlen, List.take_of_length_le (by simp)]

/-- Witness of C16: a pool of two workers; the first two calls return the
workers with ids 1 and 2, in that order. -/
theorem NextWorker_fifo_witness :
    ∃ (s0 s1 : PoolState) (results : List (WorkerPtr × Option PoolError)),
      NewServerPool chanLimit64 1 2 [] 2 = .ok s0 ∧
      NextWorkers s0 [(6, 7), (8, 9)] = .ok (s1, results) ∧
      results.map (fun r => (workerID s1.heap r.1, r.2)) = [(some 1, none), (some 2, none)] := by
  have hr : Reachable chanLimit64 1 2 [] 2 _ [] := Reachable.init rfl
  obtain ⟨s1, results, h1, h2⟩ :=
    (NextWorker_fifo chanLimit64 1 2 [] 2 _ [] hr).2.1 _ [(6, 7), (8, 9)] rfl rfl
  exact ⟨_, s1, results, rfl, h1, h2⟩

end PoolClaims

/-- The first example of the specification: a Content-Type line with a
boundary and a Subject line. -/
theorem Parse_specification_example :
    Parse (fun s => s) (fun s => s) Char.toLower zeroHeader
      "Content-Type: multipart/mixed; boundary=\"abc123\"\r\nSubject: Hi\r\n\r\nBody".toList
      = some (NewMailHeader "multipart/mixed".toList "abc123".toList [] "Hi".toList []
          "MailSlurper!".toList, none) := by
  decide

end MailSlurper
